import Mathlib

/-!
Verification development for the meetmind frontend
(src/frontend/src/views/TranscriptionView.vue and src/frontend/src/views/MinutesView.vue).

The definitions below are a shallow embedding of the view-layer logic the
specification talks about.  Modelling conventions:

* JavaScript numbers are modelled as `ℤ` where the code only ever handles
  integral millisecond offsets, and as `ℚ` where fractional values matter
  (`formatTime`'s input, the percentage computation inside `speakerStats`).
* JavaScript strings are `String` / `List Char`; `null` / `undefined` are
  `Option`; JS objects used as maps are insertion-ordered association lists.
* `JSON.parse` is modelled for the flat objects with string/integer fields that
  the streams actually carry (`\x7b"content": "..."\x7d` and the like); `\uXXXX`
  escapes are not interpreted.
* Asynchronous functions are modelled as pure functions of an explicit outcome
  (the sequence of delivered chunks, or the failure mode) returning the final
  reactive state they leave behind.
-/

namespace MeetMind

/-- A transcript segment (an entry of `transcript.content`): free-text speaker
label, start/end offsets in milliseconds and the spoken text.  The source field
`end` is called `stop` here because `end` is a Lean keyword. -/
structure Segment where
  speaker_id : String
  start : ℤ
  stop : ℤ
  text : String
deriving DecidableEq

/-! ### Time formatter (TranscriptionView.vue lines 52-58) -/

/-- A JavaScript argument as received by `formatTime`: a number, `NaN`, `null`
or `undefined`. -/
inductive JSInput where
  | null
  | undef
  | nan
  | num (q : ℚ)

/-- `String.prototype.padStart(2, '0')`. -/
def padTwo (s : String) : String :=
  if s.length < 2 then String.mk (List.replicate (2 - s.length) '0') ++ s else s

/-- `Number.prototype.toString()` for integral values. -/
def jsIntToString (n : ℤ) : String :=
  if n < 0 then "-" ++ Nat.repr n.natAbs else Nat.repr n.toNat

/-- `formatTime`: `if (!ms && ms !== 0) return '00:00'` (true exactly for
`NaN`, `null`, `undefined`), then minutes/seconds from
`Math.floor(ms / 1000)`, zero-padded to two characters.  `%` is JavaScript's
truncated remainder. -/
def formatTime : JSInput → String
  | .null => "00:00"
  | .undef => "00:00"
  | .nan => "00:00"
  | .num q =>
    let totalSeconds : ℤ := ⌊q / 1000⌋
    let minutes : ℤ := ⌊(totalSeconds : ℚ) / 60⌋
    let seconds : ℤ := Int.tmod totalSeconds 60
    padTwo (jsIntToString minutes) ++ ":" ++ padTwo (jsIntToString seconds)

/-! ### Speaker statistics (TranscriptionView.vue lines 257-272) -/

/-- `stats[seg.speaker_id] = (stats[seg.speaker_id] || 0) + dur` on a JS object:
update the existing key in place, or append a new key at the end (JS string
keys preserve insertion order). -/
def addDuration : List (String × ℤ) → String → ℤ → List (String × ℤ)
  | [], k, d => [(k, d)]
  | (k', v) :: rest, k, d =>
    if k' = k then (k', v + d) :: rest else (k', v) :: addDuration rest k d

/-- The `stats` accumulation loop of `speakerStats`. -/
def statsOf (segs : List Segment) : List (String × ℤ) :=
  segs.foldl (fun acc seg => addDuration acc seg.speaker_id (seg.stop - seg.start)) []

/-- The `totalDuration` accumulator of `speakerStats`. -/
def totalDuration (segs : List Segment) : ℤ :=
  (segs.map fun seg => seg.stop - seg.start).sum

/-- `Math.round`: round half away from zero towards positive infinity. -/
def jsRound (q : ℚ) : ℤ := ⌊q + 1 / 2⌋

/-- One entry of the `speakerStats` result. -/
structure SpeakerStat where
  speaker : String
  percentage : ℤ
deriving DecidableEq

/-- Stable insertion used to model `.sort((a, b) => b.percentage - a.percentage)`
(descending by percentage, ties keep source order, as V8's stable sort does). -/
def insertByShare (x : SpeakerStat) : List SpeakerStat → List SpeakerStat
  | [] => [x]
  | y :: ys => if y.percentage ≤ x.percentage then x :: y :: ys else y :: insertByShare x ys

/-- Stable descending sort by percentage. -/
def sortByShare : List SpeakerStat → List SpeakerStat
  | [] => []
  | x :: xs => insertByShare x (sortByShare xs)

/-- `speakerStats`: accumulate `end - start` per speaker, divide by the total,
`Math.round((dur / totalDuration) * 100)`, sort descending by percentage.
(Division by zero, a `NaN` percentage in JS, is the total function `ℚ`
division here; the claims proved below never depend on the numeric value of a
percentage obtained from a zero total.) -/
def speakerStats (segs : List Segment) : List SpeakerStat :=
  sortByShare ((statsOf segs).map fun p =>
    ⟨p.1, jsRound (((p.2 : ℚ) / ((totalDuration segs : ℤ) : ℚ)) * 100)⟩)

/-! ### Active segment resolution (TranscriptionView.vue lines 274-279) -/

/-- `currentTime.value >= seg.start && currentTime.value <= seg.end`. -/
def segMatches (t : ℤ) (seg : Segment) : Bool :=
  decide (seg.start ≤ t) && decide (t ≤ seg.stop)

/-- `Array.prototype.findIndex` as an optional first matching index. -/
def findIndexO {α : Type} (p : α → Bool) : List α → Option ℕ
  | [] => none
  | a :: rest => if p a then some 0 else (findIndexO p rest).map (· + 1)

/-- `activeSegmentIndex`: `-1` when the transcript is absent, otherwise
`Array.prototype.findIndex` (first match, `-1` when none). -/
def activeSegmentIndex (transcript : Option (List Segment)) (t : ℤ) : ℤ :=
  match transcript with
  | none => -1
  | some segs =>
    match findIndexO (segMatches t) segs with
    | none => -1
    | some i => (i : ℤ)

/-- `s.trim()`. -/
def jsTrim (l : List Char) : List Char :=
  ((l.dropWhile Char.isWhitespace).reverse.dropWhile Char.isWhitespace).reverse

/-- `s.trim()` at the string level. -/
def jsTrimStr (s : String) : String := String.mk (jsTrim s.data)

/-! ### Speaker rename with colour preservation (TranscriptionView.vue lines 321-358) -/

/-- Lookup of `speakerColors.value[key]` in the insertion-ordered map. -/
def lookupColor : List (String × String) → String → Option String
  | [], _ => none
  | (k, v) :: rest, key => if k = key then some v else lookupColor rest key

/-- `speakerColors.value[key] = v`: overwrite in place or append. -/
def setColor : List (String × String) → String → String → List (String × String)
  | [], key, v => [(key, v)]
  | (k, w) :: rest, key, v => if k = key then (k, v) :: rest else (k, w) :: setColor rest key v

/-- Truthiness of `speakerColors.value[key]` (`undefined` and `""` are falsy). -/
def colorTruthy (colors : List (String × String)) (key : String) : Bool :=
  match lookupColor colors key with
  | some s => !s.isEmpty
  | none => false

/-- The transcript-view state touched by `saveSpeakerName`. -/
structure TranscriptState where
  segments : List Segment
  colors : List (String × String)
deriving DecidableEq

/-- The local (optimistic) effect of `saveSpeakerName` for an edit of speaker
`originalId` to the raw input `rawName`: trim, bail out on empty or unchanged
names, copy the old label's cached colour to the new label when the new label
has no (truthy) cached colour, then rewrite every segment carrying the old
label.  The network call and its failure rollback (refetch) are outside this
pure model. -/
def saveSpeakerName (st : TranscriptState) (originalId rawName : String) : TranscriptState :=
  let newName := jsTrimStr rawName
  if newName = "" ∨ newName = originalId then st
  else
    let colors' :=
      if !colorTruthy st.colors newName && colorTruthy st.colors originalId then
        setColor st.colors newName ((lookupColor st.colors originalId).getD "")
      else st.colors
    let segments' := st.segments.map fun seg =>
      if seg.speaker_id = originalId then { seg with speaker_id := newName } else seg
    ⟨segments', colors'⟩

/-! ### Bounded playback (TranscriptionView.vue lines 133-144 and 182-234) -/

/-- The playback-controller state touched by `seekTo` / `onTimeUpdate`. -/
structure PlayerState where
  currentTime : ℤ
  stopAt : Option ℤ
  isPlaying : Bool
deriving DecidableEq

/-- The state effect of `seekTo(ms, endMs)`: `if (endMs) stopAt = Number(endMs)
else stopAt = null` (so a zero `endMs` is falsy and arms no bound), then
`element.play()`, which sets `isPlaying` when the play promise resolves.
The media-element seeking itself (clamping, deferred metadata) is not part of
the observable state modelled here; ticks supply the observed time. -/
def seekTo (st : PlayerState) (endMs : Option ℤ) (playResolved : Bool) : PlayerState :=
  let stopAt' : Option ℤ :=
    match endMs with
    | some e => if e ≠ 0 then some e else none
    | none => none
  { st with stopAt := stopAt', isPlaying := if playResolved then true else st.isPlaying }

/-- `onTimeUpdate` for an observed element time of `now` milliseconds:
republish the time and, `if (stopAt.value && now >= stopAt.value)`, pause and
clear the bound. -/
def onTimeUpdate (st : PlayerState) (now : ℤ) : PlayerState :=
  let st' := { st with currentTime := now }
  match st.stopAt with
  | some v => if v ≠ 0 ∧ v ≤ now then { st' with isPlaying := false, stopAt := none } else st'
  | none => st'

/-- Whether the tick at `now` fires the bounded-stop pause. -/
def tickPauses (st : PlayerState) (now : ℤ) : Bool :=
  match st.stopAt with
  | some v => decide (v ≠ 0) && decide (v ≤ now)
  | none => false

/-! ### Transcript long-poll watcher (TranscriptionView.vue lines 101-131 and 296-308) -/

/-- Externally observable outcomes driving the transcript poll loop:
the result classes of `fetchTranscript`, of `retryTranscribe`, and the
`status === 'error'` branch of `fetchRecording` which also clears the poll
timer. -/
inductive PollEvent where
  | fetchOk
  | fetch404Failed
  | fetch404NotReady
  | fetchOtherError
  | fetchNetworkError
  | retryOk
  | retryFail
  | statusError
deriving DecidableEq

/-- Poll-watcher state: the set of live interval timers (by id), the
`pollInterval` ref, a fresh-id counter, and the refs the handlers write. -/
structure PollState where
  activeTimers : List ℕ
  pollInterval : Option ℕ
  nextId : ℕ
  hasTranscript : Bool
  hasError : Bool
deriving DecidableEq

/-- `if (pollInterval.value) \x7b clearInterval(pollInterval.value); pollInterval.value = null \x7d`. -/
def clearPoll (st : PollState) : PollState :=
  match st.pollInterval with
  | some t => { st with activeTimers := st.activeTimers.erase t, pollInterval := none }
  | none => st

/-- One observed event of the transcript-polling machine. -/
def pollStep (st : PollState) : PollEvent → PollState
  | .fetchOk => clearPoll { st with hasTranscript := true }
  | .fetch404Failed => clearPoll { st with hasError := true }
  | .fetch404NotReady =>
    if st.pollInterval.isSome then st
    else
      { st with activeTimers := st.activeTimers ++ [st.nextId],
                pollInterval := some st.nextId, nextId := st.nextId + 1 }
  | .fetchOtherError => { st with hasError := true }
  | .fetchNetworkError => st
  | .retryOk =>
    let cleared :=
      match st.pollInterval with
      | some t => { st with activeTimers := st.activeTimers.erase t }
      | none => st
    ⟨cleared.activeTimers ++ [st.nextId], some st.nextId, st.nextId + 1, false, false⟩
  | .retryFail => { st with hasError := true }
  | .statusError => clearPoll { st with hasError := true }

/-- Initial state on mount. -/
def pollInit : PollState := ⟨[], none, 0, false, false⟩

/-- The state reached after a sequence of observed events. -/
def pollRun (evs : List PollEvent) : PollState := evs.foldl pollStep pollInit

/-! ### Chunked minutes stream consumer (MinutesView.vue lines 75-108) -/

/-- How one execution of `startStreaming` plays out: the HTTP response is not
ok, the reader throws after delivering some chunks, or all chunks arrive. -/
inductive StreamOutcome where
  | httpError
  | readError (chunks : List String)
  | streamed (chunks : List String)

/-- The reactive state `startStreaming` leaves behind. -/
structure GenState where
  loading : Bool
  isGenerating : Bool
  streamContent : String
  errorNotified : Bool
deriving DecidableEq

/-- Concatenation of the delivered chunks. -/
def concatAll : List String → String
  | [] => ""
  | c :: cs => c ++ concatAll cs

/-- `startStreaming`: set both busy flags and reset the accumulator; append
each chunk as it arrives; on success re-fetch the persisted minutes (which
replaces the accumulator when the stored content is truthy); on any failure
notify via `ElMessage.error`; clear both flags in `finally`. -/
def startStreaming (outcome : StreamOutcome) (persisted : Option String) : GenState :=
  let afterTry : GenState :=
    match outcome with
    | .httpError => ⟨true, true, concatAll [], true⟩
    | .readError chunks => ⟨true, true, concatAll chunks, true⟩
    | .streamed chunks =>
      match persisted with
      | some c => if c ≠ "" then ⟨true, true, c, false⟩ else ⟨true, true, concatAll chunks, false⟩
      | none => ⟨true, true, concatAll chunks, false⟩
  { afterTry with loading := false, isGenerating := false }

/-! ### SSE parsing helpers (MinutesView.vue `sendChatMessage` lines 994-1042
and `confirmGenerate` lines 1204-1249) -/

/-- `chunk.split('\n\n')`: left-to-right, non-overlapping split on the block
delimiter; always returns at least one (possibly empty) part. -/
def splitBlocks : List Char → List (List Char)
  | [] => [[]]
  | '\n' :: '\n' :: rest => [] :: splitBlocks rest
  | c :: rest =>
    match splitBlocks rest with
    | [] => [[c]]
    | p :: ps => (c :: p) :: ps

/-- `line.split('\n')`. -/
def splitOnNl : List Char → List (List Char)
  | [] => [[]]
  | '\n' :: rest => [] :: splitOnNl rest
  | c :: rest =>
    match splitOnNl rest with
    | [] => [[c]]
    | p :: ps => (c :: p) :: ps

/-- `parts.join('\n')`. -/
def joinNl : List (List Char) → List Char
  | [] => []
  | [p] => p
  | p :: ps => p ++ '\n' :: joinNl ps

/-- `s.replace(pat, '')` for a plain-string pattern: remove the first
occurrence, if any. -/
def removeFirst (pat : List Char) : List Char → List Char
  | [] => []
  | c :: rest =>
    if pat.isPrefixOf (c :: rest) then (c :: rest).drop pat.length
    else c :: removeFirst pat rest

/-- A JSON leaf value as carried by the event streams. -/
inductive JsonVal where
  | str (s : String)
  | int (n : ℤ)
deriving DecidableEq

/-- JSON whitespace skipping. -/
def skipWs (l : List Char) : List Char := l.dropWhile Char.isWhitespace

/-- Single-character JSON escapes (`\uXXXX` is not interpreted). -/
def unescapeChar : Char → Char
  | 'n' => '\n'
  | 't' => '\t'
  | 'r' => '\r'
  | 'b' => '\x08'
  | 'f' => '\x0c'
  | c => c

/-- Parse a JSON string body after the opening quote; `none` when the closing
quote is missing (an unterminated literal, as in a split chunk). -/
def parseStringLit : List Char → Option (List Char × List Char)
  | [] => none
  | '"' :: rest => some ([], rest)
  | '\\' :: esc :: rest => (parseStringLit rest).map fun p => (unescapeChar esc :: p.1, p.2)
  | c :: rest => (parseStringLit rest).map fun p => (c :: p.1, p.2)

/-- Digit run to a natural number. -/
def digitsToNat (ds : List Char) : ℕ :=
  ds.foldl (fun n c => 10 * n + (c.toNat - '0'.toNat)) 0

/-- Parse an integer literal. -/
def parseIntLit (l : List Char) : Option (ℤ × List Char) :=
  match l with
  | '-' :: rest =>
    let ds := rest.takeWhile Char.isDigit
    if ds = [] then none else some (-(digitsToNat ds : ℤ), rest.drop ds.length)
  | _ =>
    let ds := l.takeWhile Char.isDigit
    if ds = [] then none else some ((digitsToNat ds : ℤ), l.drop ds.length)

/-- Parse one JSON value of the supported fragment. -/
def parseValue (l : List Char) : Option (JsonVal × List Char) :=
  match l with
  | '"' :: rest => (parseStringLit rest).map fun p => (.str (String.mk p.1), p.2)
  | _ => (parseIntLit l).map fun p => (.int p.1, p.2)

/-- Parse the members of a JSON object after the opening brace (fuelled; the
fuel is an upper bound on the number of members). -/
def parseMembers : ℕ → List Char → Option (List (String × JsonVal) × List Char)
  | 0, _ => none
  | fuel + 1, l =>
    match skipWs l with
    | '"' :: rest =>
      match parseStringLit rest with
      | none => none
      | some (key, rest1) =>
        match skipWs rest1 with
        | ':' :: rest2 =>
          match parseValue (skipWs rest2) with
          | none => none
          | some (v, rest3) =>
            match skipWs rest3 with
            | ',' :: rest4 =>
              (parseMembers fuel rest4).map fun p => ((String.mk key, v) :: p.1, p.2)
            | '\x7d' :: rest4 => some ([(String.mk key, v)], rest4)
            | _ => none
        | _ => none
    | _ => none

/-- `JSON.parse` on the flat-object fragment: `none` models a thrown
`SyntaxError`. -/
def parseJsonObj (l : List Char) : Option (List (String × JsonVal)) :=
  match skipWs l with
  | '\x7b' :: rest =>
    match skipWs rest with
    | '\x7d' :: rest1 => if skipWs rest1 = [] then some [] else none
    | other =>
      match parseMembers (other.length + 1) other with
      | some (ms, rest1) => if skipWs rest1 = [] then some ms else none
      | none => none
  | _ => none

/-- Property access `obj.key` (later duplicate keys shadow earlier ones). -/
def jsonGet (obj : List (String × JsonVal)) (key : String) : Option JsonVal :=
  (obj.reverse.find? fun p => p.1 = key).map Prod.snd

/-- Coercion of a possibly-missing JSON value into the string JS would
interpolate or store. -/
def jsStringOf : Option JsonVal → String
  | some (.str s) => s
  | some (.int n) => jsIntToString n
  | none => "undefined"

/-! ### Chat SSE consumer (`sendChatMessage`) -/

/-- A chat event the handler actually processed. -/
inductive ChatEvent where
  | thought (s : String)
  | action (tool query : String)
  | answer (s : String)
  | sessionId (s : String)
  | errorEvt (s : String)
deriving DecidableEq

/-- The assistant-message / session state the chat stream loop mutates, plus a
trace of the events it handled. -/
structure ChatState where
  content : String
  thoughts : List String
  actions : List (String × String)
  sessionId : Option String
  trace : List ChatEvent
deriving DecidableEq

/-- Handling of one block of a chat chunk: `line.startsWith('event:')`, first
line is the event line, remaining lines re-joined are the data line, both must
be truthy; the event name drops one `'event: '` occurrence and is trimmed, the
data drops one `'data: '` occurrence (untrimmed); malformed JSON is caught and
ignored. -/
def chatHandleBlock (st : ChatState) (line : List Char) : ChatState :=
  if "event:".data.isPrefixOf line then
    match splitOnNl line with
    | [] => st
    | eventLine :: dataLines =>
      let dataLine := joinNl dataLines
      if eventLine ≠ [] ∧ dataLine ≠ [] then
        let event := String.mk (jsTrim (removeFirst "event: ".data eventLine))
        let dataStr := removeFirst "data: ".data dataLine
        match parseJsonObj dataStr with
        | none => st
        | some obj =>
          if event = "thought" then
            let s := jsStringOf (jsonGet obj "content")
            { st with thoughts := st.thoughts ++ [s], trace := st.trace ++ [.thought s] }
          else if event = "action" then
            let tool := jsStringOf (jsonGet obj "tool")
            let query := jsStringOf (jsonGet obj "query")
            { st with actions := st.actions ++ [(tool, query)],
                      trace := st.trace ++ [.action tool query] }
          else if event = "answer" then
            let s := jsStringOf (jsonGet obj "content")
            { st with content := st.content ++ s, trace := st.trace ++ [.answer s] }
          else if event = "session_id" then
            let s := jsStringOf (jsonGet obj "id")
            { st with sessionId := if st.sessionId = none then some s else st.sessionId,
                      trace := st.trace ++ [.sessionId s] }
          else if event = "error" then
            let s := jsStringOf (jsonGet obj "content")
            { st with content := st.content ++ "\n\n*Error: " ++ s ++ "*",
                      trace := st.trace ++ [.errorEvt s] }
          else st
      else st
  else st

/-- One delivered chat chunk: split on `'\n\n'` and handle every part.  No
buffer is carried between chunks. -/
def chatProcessChunk (st : ChatState) (chunk : String) : ChatState :=
  (splitBlocks chunk.data).foldl chatHandleBlock st

/-- The assistant-message state after the whole chat stream. -/
def chatRun (chunks : List String) : ChatState :=
  chunks.foldl chatProcessChunk ⟨"", [], [], none, []⟩

/-- The answer events of a chat run. -/
def chatAnswers (chunks : List String) : List String :=
  (chatRun chunks).trace.filterMap fun e =>
    match e with
    | .answer s => some s
    | _ => none

/-! ### Knowledge-base SSE consumer (`confirmGenerate`) -/

/-- Raw events (name and trimmed data payload) emitted by one complete block of
the knowledge-base generation stream: `line.startsWith('event: ')`, event line
split from data lines, data re-joined, `'data: '` dropped once and trimmed,
skipped when empty. -/
def kbHandleBlock (line : List Char) : List (String × String) :=
  if "event: ".data.isPrefixOf line then
    match splitOnNl line with
    | [] => []
    | eventLine :: dataLines =>
      let event := String.mk (jsTrim (removeFirst "event: ".data eventLine))
      let dataStr := jsTrim (removeFirst "data: ".data (joinNl dataLines))
      if dataStr ≠ [] then [(event, String.mk dataStr)] else []
  else []

/-- Buffer plus emitted events of the knowledge-base stream loop. -/
structure KbState where
  buffer : List Char
  events : List (String × String)
deriving DecidableEq

/-- One delivered chunk: `buffer += chunk; const lines = buffer.split('\n\n');
buffer = lines.pop()`; process every complete block, retain the trailing
(possibly incomplete) fragment. -/
def kbStep (st : KbState) (chunk : String) : KbState :=
  let parts := splitBlocks (st.buffer ++ chunk.data)
  ⟨parts.getLastD [], st.events ++ parts.dropLast.flatMap kbHandleBlock⟩

/-- The knowledge-base stream state after all chunks. -/
def kbRun (chunks : List String) : KbState := chunks.foldl kbStep ⟨[], []⟩

/-- The `status`-event progress messages of a knowledge-base run
(`researchStatusMessage.value = data.message` for each parsed status event). -/
def kbStatusMessages (chunks : List String) : List String :=
  (kbRun chunks).events.filterMap fun p =>
    if p.1 = "status" then
      match parseJsonObj p.2.data with
      | some obj => some (jsStringOf (jsonGet obj "message"))
      | none => none
    else none

/-! ### Citation transformer (MinutesView.vue lines 731-823) -/

/-- The characters the JS regex `.` (without the dotAll flag) cannot match:
the four ECMAScript line terminators LF, CR, LINE SEPARATOR and PARAGRAPH
SEPARATOR. -/
def isLineTerm (c : Char) : Bool :=
  c = '\n' || c = '\r' || c = '\u2028' || c = '\u2029'

/-- The lazy `(.*?)` scan of `/\[\[(.*?)\]\]/g` after an opening `[[`: find the
earliest `]]`, failing at a line terminator or at the end of input.  Returns
the captured identifier and the remainder after the `]]`. -/
def findClose : List Char → Option (List Char × List Char)
  | [] => none
  | ']' :: ']' :: rest => some ([], rest)
  | c :: rest =>
    if isLineTerm c then none
    else (findClose rest).map fun p => (c :: p.1, p.2)

/-- Whether a `[[identifier]]` token starts at the head of the input. -/
def headTok : List Char → Option (List Char × List Char)
  | '[' :: '[' :: rest => findClose rest
  | _ => none

/-- Whether two consecutive `]` characters occur anywhere in the list (the
closing delimiter of a citation token). -/
def hasClosePair : List Char → Bool
  | ']' :: ']' :: _ => true
  | _ :: rest => hasClosePair rest
  | [] => false

/-- Whether two consecutive `[` characters occur anywhere in the list (the
opening delimiter of a citation token). -/
def hasOpenPair : List Char → Bool
  | '[' :: '[' :: _ => true
  | _ :: rest => hasOpenPair rest
  | [] => false

/-- Every `[[` occurring in `l` is followed, still within `l`, by a line break
before any `]]`: a scan that starts at such a `[[` can never complete a
citation token, whatever text is appended after `l`. -/
def SafeTail (l : List Char) : Prop :=
  ∀ x y, l = x ++ '[' :: '[' :: y →
    ∃ y₁ y₂, y = y₁ ++ '\n' :: y₂ ∧ hasClosePair y₁ = false

/-- No citation token starts at any position of `l`. -/
def matchFree (l : List Char) : Prop := ∀ u v, l = u ++ v → headTok v = none

/-- `toLowerCase()` (ASCII, which covers every pattern the code matches). -/
def lowerList (l : List Char) : List Char := l.map Char.toLower

/-- `String.prototype.includes`. -/
def isSubstrOf (pat : List Char) : List Char → Bool
  | [] => pat.isEmpty
  | c :: rest => pat.isPrefixOf (c :: rest) || isSubstrOf pat rest

/-- Case-insensitive literal prefix (the pattern is given in lowercase);
returns the remainder in original case. -/
def stripPrefixCI (pat : List Char) (l : List Char) : Option (List Char) :=
  if lowerList (l.take pat.length) = pat then some (l.drop pat.length) else none

/-- The backtracking split of `(.*)_(\d+)$`: the greedy `(.*)` puts the
underscore before the maximal trailing digit run, which must be nonempty. -/
def lastUnderscoreDigits (l : List Char) : Option (List Char × List Char) :=
  let r := l.reverse
  let ds := r.takeWhile Char.isDigit
  if ds = [] then none
  else
    match r.drop ds.length with
    | '_' :: rem => some (rem.reverse, ds.reverse)
    | _ => none

/-- `sourceName.match(/^Keyword_(.*)_(\d+)$/i)`: case-insensitive
keyword-underscore prefix, then the greedy dot-star (which matches no line
terminator) and a final underscore-digits group.  Returns (group 1, group 2). -/
def matchNameId (keyword : List Char) (name : List Char) : Option (List Char × List Char) :=
  match stripPrefixCI (keyword ++ ['_']) name with
  | none => none
  | some rest =>
    match lastUnderscoreDigits rest with
    | none => none
    | some (g1, ds) => if g1.any isLineTerm then none else some (g1, ds)

/-- `sourceName.match(/^(PRD|SPECS|TIMELINE|GLOSSARY|BUSINESS)_(\d+)$/i)`:
returns the lowercased keyword and the digits. -/
def matchKbKeyword (name : List Char) : Option (String × List Char) :=
  ["prd", "specs", "timeline", "glossary", "business"].findSome? fun kw =>
    match stripPrefixCI (kw.data ++ ['_']) name with
    | some rest =>
      if rest ≠ [] ∧ rest.all Char.isDigit then some (kw, rest) else none
    | none => none

/-- The `section` computed from the matched knowledge-base keyword. -/
def kbSection : String → String
  | "prd" => "prd"
  | "specs" => "specs"
  | "timeline" => "timeline"
  | "glossary" => "glossary"
  | "business" => "business_flows"
  | _ => ""

/-- The Chinese display name of a knowledge-base section (`... || section`). -/
def kbDisplayName : String → String
  | "prd" => "需求文档"
  | "specs" => "功能说明书"
  | "timeline" => "时间表"
  | "glossary" => "术语表"
  | "business_flows" => "业务流程"
  | s => s

/-- First line of the interactive-citation template (trailing space as in the
source template literal). -/
def lineA1 (href : List Char) : List Char :=
  "<a href=\"".data ++ href ++ "\" class=\"source-link inline-flex items-center gap-1 px-1.5 py-0.5 mx-1 rounded bg-primary/10 hover:bg-primary/20 text-primary text-xs font-medium cursor-pointer transition-colors align-middle no-underline select-none\" ".data

/-- `data-type` line of the interactive-citation template. -/
def lineA2 (ty : List Char) : List Char :=
  "            data-type=\"".data ++ ty ++ "\" ".data

/-- `data-id` line of the interactive-citation template. -/
def lineA3 (idv : List Char) : List Char :=
  "            data-id=\"".data ++ idv ++ "\" ".data

/-- `data-section` line of the interactive-citation template. -/
def lineA4 (sec : List Char) : List Char :=
  "            data-section=\"".data ++ sec ++ "\"".data

/-- `title` line of the interactive-citation template. -/
def lineA5 (disp : List Char) : List Char :=
  "            title=\"查看来源: ".data ++ disp ++ "\">".data

/-- Icon line of the interactive-citation template. -/
def lineA6 (icon : List Char) : List Char :=
  "            <span class=\"material-symbols-outlined text-[12px]\">".data ++ icon ++ "</span>".data

/-- Display-name line of the interactive-citation template. -/
def lineA7 (disp : List Char) : List Char :=
  "            <span class=\"max-w-[150px] truncate\">".data ++ disp ++ "</span>".data

/-- `open_in_new` line of the interactive-citation template. -/
def lineA8 : List Char :=
  "            <span class=\"material-symbols-outlined text-[10px]\">open_in_new</span>".data

/-- Closing line of the interactive-citation template. -/
def lastA : List Char := "        </a>".data

/-- The interactive cross-reference element returned for a recognized
citation. -/
def anchorHtml (href ty idv sec disp icon : List Char) : List Char :=
  lineA1 href ++ '\n' ::
    (lineA2 ty ++ '\n' ::
      (lineA3 idv ++ '\n' ::
        (lineA4 sec ++ '\n' ::
          (lineA5 disp ++ '\n' ::
            (lineA6 icon ++ '\n' ::
              (lineA7 disp ++ '\n' ::
                (lineA8 ++ '\n' :: lastA)))))))

/-- First line of the non-interactive badge template. -/
def lineB1 : List Char :=
  "<span class=\"inline-flex items-center gap-1 px-1.5 py-0.5 mx-1 rounded bg-primary/10 text-primary text-xs font-medium align-middle cursor-default select-none\">".data

/-- Icon line of the non-interactive badge template. -/
def lineB2 (icon : List Char) : List Char :=
  "          <span class=\"material-symbols-outlined text-[12px]\">".data ++ icon ++ "</span>".data

/-- Name line of the non-interactive badge template. -/
def lineB3 (nm : List Char) : List Char :=
  "          <span>".data ++ nm ++ "</span>".data

/-- Closing line of the non-interactive badge template. -/
def lastB : List Char := "        </span>".data

/-- The non-interactive badge returned for an unrecognized citation. -/
def badgeHtml (icon nm : List Char) : List Char :=
  lineB1 ++ '\n' :: (lineB2 icon ++ '\n' :: (lineB3 nm ++ '\n' :: lastB))

/-- The replacement callback of `transformCitations` for one captured
identifier: branch on a lowercased `'minutes'` / `'transcript'` substring, the
knowledge-base keyword pattern, or a `'document_'` prefix; inside each branch
the full pattern must match for the interactive element, otherwise the badge is
returned with the branch's icon. -/
def citationReplacement (projectId : String) (name : List Char) : List Char :=
  if isSubstrOf "minutes".data (lowerList name) then
    match matchNameId "minutes".data name with
    | some (g1, ds) =>
      anchorHtml ("/recording/".data ++ ds ++ "/minutes".data) "minutes".data ds [] g1
        "event_note".data
    | none => badgeHtml "event_note".data name
  else if isSubstrOf "transcript".data (lowerList name) then
    match matchNameId "transcript".data name with
    | some (g1, ds) =>
      anchorHtml ("/recording/".data ++ ds) "transcript".data ds [] g1
        "record_voice_over".data
    | none => badgeHtml "record_voice_over".data name
  else
    match matchKbKeyword name with
    | some (kw, _ds) =>
      let sec := kbSection kw
      anchorHtml ("/project/".data ++ projectId.data ++ "?tab=kb".data) "kb".data [] sec.data
        (kbDisplayName sec).data "library_books".data
    | none =>
      if "document_".data.isPrefixOf (lowerList name) then
        match matchNameId "document".data name with
        | some (g1, ds) =>
          anchorHtml ("/project/".data ++ projectId.data ++ "?tab=files".data) "document".data
            ds [] g1 "article".data
        | none => badgeHtml "article".data name
      else badgeHtml "description".data name

/-- The `html.replace(/\[\[(.*?)\]\]/g, ...)` scan, fuelled by the input
length: at each position either a token starts (replace it and continue after
its `]]`) or one character is copied. -/
def scanCit (pid : String) : ℕ → List Char → List Char
  | 0, _ => []
  | _ + 1, [] => []
  | fuel + 1, c :: cs =>
    match headTok (c :: cs) with
    | some (cap, rest) => citationReplacement pid cap ++ scanCit pid fuel rest
    | none => c :: scanCit pid fuel cs

/-- `transformCitations` as a function of the view's `projectId` route
parameter and the rendered input. -/
def transformCitations (pid : String) (s : String) : String :=
  String.mk (scanCit pid s.data.length s.data)

/-! ## Theorems -/

/-! ### C3: stream-consumer failure handling -/

/-- C3 counterexample: when the reader throws after delivering `"partial"`, the
final accumulator is exactly `"partial"` — no error indicator is appended to
the accumulated stream content (the claim asserts one is), although the
notification fires and both flags are cleared. -/
theorem c3_no_error_indicator_counterexample :
    (startStreaming (.readError ["partial"]) none).streamContent = "partial" ∧
    (startStreaming (.readError ["partial"]) none).errorNotified = true ∧
    (startStreaming (.readError ["partial"]) none).loading = false ∧
    (startStreaming (.readError ["partial"]) none).isGenerating = false := by
  decide

/-- C3 (amended): every execution of `startStreaming` clears both in-progress
flags; on a failed HTTP response or a thrown read error a notification is
surfaced, and the accumulator is left holding exactly the chunks accumulated
before the failure (no error indicator is appended to it). -/
theorem c3_startStreaming_amended :
    (∀ outcome persisted, (startStreaming outcome persisted).loading = false ∧
        (startStreaming outcome persisted).isGenerating = false) ∧
    (∀ persisted, (startStreaming .httpError persisted).errorNotified = true ∧
        (startStreaming .httpError persisted).streamContent = "") ∧
    (∀ chunks persisted, (startStreaming (.readError chunks) persisted).errorNotified = true ∧
        (startStreaming (.readError chunks) persisted).streamContent = concatAll chunks) := by
  refine ⟨fun outcome persisted => ⟨rfl, rfl⟩, fun persisted => ⟨rfl, rfl⟩,
    fun chunks persisted => ⟨rfl, rfl⟩⟩

/-! ### C4: bounded playback -/

/-- C4 counterexample: `seekTo` with a supplied `endMs = 0` arms no bound
(`if (endMs)` is falsy at `0`), so the following tick at `6000 ≥ 0` does not
pause, contradicting the claim that the first tick at or past `endMs` pauses
playback. -/
theorem c4_zero_endMs_counterexample :
    (seekTo ⟨0, none, false⟩ (some 0) true).stopAt = none ∧
    tickPauses (seekTo ⟨0, none, false⟩ (some 0) true) 6000 = false ∧
    (0 : ℤ) ≤ 6000 ∧
    (onTimeUpdate (seekTo ⟨0, none, false⟩ (some 0) true) 6000).isPlaying = true := by
  decide

/-- C4 (amended): for a supplied nonzero `endMs` the bound is armed; a tick
strictly before the bound never pauses and keeps the bound; the first tick at
or past the bound pauses and clears it; once the bound is cleared no tick
pauses.  The spec's concrete scenario (`seekTo(5000, 8000)`, ticks at 6000,
8000, 9000) behaves as claimed. -/
theorem c4_bounded_playback_amended :
    (∀ st e play, e ≠ 0 → (seekTo st (some e) play).stopAt = some e) ∧
    (∀ (st : PlayerState) now e, st.stopAt = some e → e ≠ 0 → now < e →
        onTimeUpdate st now = { st with currentTime := now } ∧ tickPauses st now = false) ∧
    (∀ (st : PlayerState) now e, st.stopAt = some e → e ≠ 0 → e ≤ now →
        onTimeUpdate st now = { st with currentTime := now, isPlaying := false, stopAt := none } ∧
        tickPauses st now = true) ∧
    (∀ (st : PlayerState) now, st.stopAt = none →
        onTimeUpdate st now = { st with currentTime := now } ∧ tickPauses st now = false) ∧
    ((seekTo ⟨0, none, false⟩ (some 8000) true).stopAt = some 8000 ∧
      onTimeUpdate (seekTo ⟨0, none, false⟩ (some 8000) true) 6000 = ⟨6000, some 8000, true⟩ ∧
      onTimeUpdate (⟨6000, some 8000, true⟩ : PlayerState) 8000 = ⟨8000, none, false⟩ ∧
      onTimeUpdate (⟨8000, none, false⟩ : PlayerState) 9000 = ⟨9000, none, false⟩) := by
  refine ⟨fun st e play he => ?_, fun st now e hs he hlt => ?_, fun st now e hs he hle => ?_,
    fun st now hs => ?_, by decide⟩
  · simp only [seekTo, if_pos he]
  · have : ¬ (e ≠ 0 ∧ e ≤ now) := by
      rintro ⟨-, hle⟩
      omega
    constructor
    · simp only [onTimeUpdate, hs, if_neg this]
    · have hd : decide (e ≤ now) = false := by
        simp only [decide_eq_false_iff_not]
        omega
      simp only [tickPauses, hs, hd, Bool.and_false]
  · constructor
    · simp only [onTimeUpdate, hs, if_pos (And.intro he hle)]
    · simp only [tickPauses, hs, Bool.and_eq_true, decide_eq_true_eq]
      exact ⟨he, hle⟩
  · constructor
    · simp only [onTimeUpdate, hs]
    · simp only [tickPauses, hs]

/-- C4 witness: the amended theorem applied with concrete bound `8000` and
ticks `6000` (strictly before) and `8000` (at the bound). -/
theorem c4_bounded_playback_amended_witness :
    (seekTo ⟨0, none, false⟩ (some 8000) true).stopAt = some 8000 ∧
    tickPauses (⟨6000, some 8000, true⟩ : PlayerState) 6000 = false ∧
    tickPauses (⟨6000, some 8000, true⟩ : PlayerState) 8000 = true ∧
    tickPauses (⟨8000, none, false⟩ : PlayerState) 9000 = false :=
  ⟨c4_bounded_playback_amended.1 ⟨0, none, false⟩ 8000 true (by decide),
    (c4_bounded_playback_amended.2.1 ⟨6000, some 8000, true⟩ 6000 8000 rfl (by decide)
      (by decide)).2,
    (c4_bounded_playback_amended.2.2.1 ⟨6000, some 8000, true⟩ 8000 8000 rfl (by decide)
      (by decide)).2,
    (c4_bounded_playback_amended.2.2.2.1 ⟨8000, none, false⟩ 9000 rfl).2⟩

/-! ### C5: active segment resolution -/

/-- `findIndexO` returns the first index satisfying the predicate. -/
theorem findIndexO_eq_some {α : Type} (p : α → Bool) :
    ∀ (l : List α) (i : ℕ) (h : i < l.length), p (l.get ⟨i, h⟩) = true →
      (∀ j (hj : j < l.length), j < i → p (l.get ⟨j, hj⟩) = false) →
      findIndexO p l = some i
  | [], i, h, _, _ => absurd h (by simp)
  | a :: rest, 0, _, hp, _ => by
    have ha : p a = true := hp
    simp [findIndexO, ha]
  | a :: rest, i + 1, h, hp, hfirst => by
    have ha : p a = false := hfirst 0 (Nat.succ_pos _) (Nat.succ_pos _)
    have hrec := findIndexO_eq_some p rest i (Nat.lt_of_succ_lt_succ h) hp
      (fun j hj hji => hfirst (j + 1) (Nat.succ_lt_succ hj) (Nat.succ_lt_succ hji))
    simp [findIndexO, ha, hrec]

/-- `findIndexO` returns `none` when no element satisfies the predicate. -/
theorem findIndexO_eq_none {α : Type} (p : α → Bool) :
    ∀ l : List α, (∀ i (h : i < l.length), p (l.get ⟨i, h⟩) = false) →
      findIndexO p l = none
  | [], _ => rfl
  | a :: rest, hall => by
    have ha : p a = false := hall 0 (Nat.succ_pos _)
    have hrec := findIndexO_eq_none p rest fun i h => hall (i + 1) (Nat.succ_lt_succ h)
    simp [findIndexO, ha, hrec]

/-- C5: `activeSegmentIndex` returns the index of the first segment with
`start ≤ t ≤ end` (so in particular the unique such index when exactly one
exists, and the first one when several overlap), and the sentinel `-1` when no
segment matches or no transcript is loaded. -/
theorem c5_activeSegmentIndex :
    (∀ (segs : List Segment) (t : ℤ) (i : ℕ) (h : i < segs.length),
        segMatches t (segs.get ⟨i, h⟩) = true →
        (∀ j (hj : j < segs.length), j < i → segMatches t (segs.get ⟨j, hj⟩) = false) →
        activeSegmentIndex (some segs) t = (i : ℤ)) ∧
    (∀ (segs : List Segment) (t : ℤ),
        (∀ i (h : i < segs.length), segMatches t (segs.get ⟨i, h⟩) = false) →
        activeSegmentIndex (some segs) t = -1) ∧
    (∀ t : ℤ, activeSegmentIndex none t = -1) ∧
    (∀ (segs : List Segment) (t : ℤ) (i : ℕ) (h : i < segs.length),
        segMatches t (segs.get ⟨i, h⟩) = true →
        (∀ j (hj : j < segs.length), j ≠ i → segMatches t (segs.get ⟨j, hj⟩) = false) →
        activeSegmentIndex (some segs) t = (i : ℤ)) := by
  have first : ∀ (segs : List Segment) (t : ℤ) (i : ℕ) (h : i < segs.length),
      segMatches t (segs.get ⟨i, h⟩) = true →
      (∀ j (hj : j < segs.length), j < i → segMatches t (segs.get ⟨j, hj⟩) = false) →
      activeSegmentIndex (some segs) t = (i : ℤ) := by
    intro segs t i h hp hfirst
    simp [activeSegmentIndex, findIndexO_eq_some (segMatches t) segs i h hp hfirst]
  refine ⟨first, ?_, fun t => rfl, ?_⟩
  · intro segs t hall
    simp [activeSegmentIndex, findIndexO_eq_none (segMatches t) segs hall]
  · intro segs t i h hp huniq
    exact first segs t i h hp fun j hj hji => huniq j hj (Nat.ne_of_lt hji)

/-- C5 witness: a two-segment transcript where only the second segment spans
`t = 2500`, plus the no-match and no-transcript sentinels. -/
theorem c5_activeSegmentIndex_witness :
    activeSegmentIndex (some [⟨"A", 0, 1000, "a"⟩, ⟨"B", 2000, 3000, "b"⟩]) 2500 = 1 ∧
    activeSegmentIndex (some [⟨"A", 0, 1000, "a"⟩]) 1500 = -1 ∧
    activeSegmentIndex none 1500 = -1 :=
  ⟨c5_activeSegmentIndex.1 [⟨"A", 0, 1000, "a"⟩, ⟨"B", 2000, 3000, "b"⟩] 2500 1 (by decide)
      (by decide) (by decide),
    c5_activeSegmentIndex.2.1 [⟨"A", 0, 1000, "a"⟩] 1500 (by decide),
    c5_activeSegmentIndex.2.2.1 1500⟩

/-! ### C7: long-poll watcher timer invariant -/

/-- The timer invariant preserved by every event of the polling machine:
the live timers are exactly the timer recorded in `pollInterval`. -/
theorem pollStep_inv (st : PollState) (e : PollEvent)
    (h : (st.pollInterval = none ∧ st.activeTimers = []) ∨
      (∃ t, st.pollInterval = some t ∧ st.activeTimers = [t])) :
    ((pollStep st e).pollInterval = none ∧ (pollStep st e).activeTimers = []) ∨
      (∃ t, (pollStep st e).pollInterval = some t ∧ (pollStep st e).activeTimers = [t]) := by
  rcases h with ⟨h1, h2⟩ | ⟨t, h1, h2⟩ <;> cases e <;>
    simp [pollStep, clearPoll, h1, h2, List.erase_cons]

/-- Every reachable state of the polling machine satisfies the timer
invariant. -/
theorem pollRun_inv (evs : List PollEvent) :
    ((pollRun evs).pollInterval = none ∧ (pollRun evs).activeTimers = []) ∨
      (∃ t, (pollRun evs).pollInterval = some t ∧ (pollRun evs).activeTimers = [t]) := by
  have main : ∀ (l : List PollEvent) (st : PollState),
      ((st.pollInterval = none ∧ st.activeTimers = []) ∨
        (∃ t, st.pollInterval = some t ∧ st.activeTimers = [t])) →
      ((l.foldl pollStep st).pollInterval = none ∧ (l.foldl pollStep st).activeTimers = []) ∨
        (∃ t, (l.foldl pollStep st).pollInterval = some t ∧
          (l.foldl pollStep st).activeTimers = [t]) := by
    intro l
    induction l with
    | nil => exact fun st h => h
    | cons e rest ih => exact fun st h => ih (pollStep st e) (pollStep_inv st e h)
  exact main evs pollInit (Or.inl ⟨rfl, rfl⟩)

/-- C7: in every reachable state of the transcript-polling machine at most one
timer is live; a not-ready response while a timer is live is a no-op; a
successful fetch clears the timer (and nothing restarts it short of an
explicit retry, which first clears any live timer and then starts exactly one
fresh timer). -/
theorem c7_poll_timer_invariant :
    (∀ evs, (pollRun evs).activeTimers.length ≤ 1) ∧
    (∀ evs, (pollRun evs).pollInterval.isSome = true →
        pollStep (pollRun evs) .fetch404NotReady = pollRun evs) ∧
    (∀ evs, (pollStep (pollRun evs) .fetchOk).activeTimers = [] ∧
        (pollStep (pollRun evs) .fetchOk).pollInterval = none) ∧
    (∀ evs, (pollStep (pollRun evs) .retryOk).activeTimers = [(pollRun evs).nextId] ∧
        (pollStep (pollRun evs) .retryOk).pollInterval = some (pollRun evs).nextId) := by
  refine ⟨fun evs => ?_, fun evs h => ?_, fun evs => ?_, fun evs => ?_⟩
  · rcases pollRun_inv evs with ⟨-, h2⟩ | ⟨t, -, h2⟩ <;> simp [h2]
  · simp [pollStep, h]
  · rcases pollRun_inv evs with ⟨h1, h2⟩ | ⟨t, h1, h2⟩ <;>
      simp [pollStep, clearPoll, h1, h2, List.erase_cons]
  · rcases pollRun_inv evs with ⟨h1, h2⟩ | ⟨t, h1, h2⟩ <;>
      simp [pollStep, h1, h2, List.erase_cons]

/-- C7 witness: after a first not-ready response one timer is live, and a
second not-ready response is a no-op; a subsequent successful fetch clears the
timer; an explicit retry from the failed state starts exactly one fresh
timer. -/
theorem c7_poll_timer_invariant_witness :
    pollStep (pollRun [.fetch404NotReady]) .fetch404NotReady = pollRun [.fetch404NotReady] ∧
    (pollStep (pollRun [.fetch404NotReady]) .fetchOk).activeTimers = [] ∧
    (pollStep (pollRun [.fetch404Failed]) .retryOk).activeTimers =
      [(pollRun [.fetch404Failed]).nextId] :=
  ⟨c7_poll_timer_invariant.2.1 [.fetch404NotReady] (by decide),
    (c7_poll_timer_invariant.2.2.1 [.fetch404NotReady]).1,
    (c7_poll_timer_invariant.2.2.2 [.fetch404Failed]).1⟩

/-! ### C6: speaker rename and colour-cache inheritance -/

/-- Mapping a list relates every element to its image. -/
theorem forall₂_map_self {α : Type} (R : α → α → Prop) (f : α → α) (h : ∀ a, R a (f a)) :
    ∀ l : List α, List.Forall₂ R l (l.map f)
  | [] => List.Forall₂.nil
  | a :: rest => List.Forall₂.cons (h a) (forall₂_map_self R f h rest)

/-- Writing a colour makes it the value subsequently looked up. -/
theorem lookupColor_setColor_self (colors : List (String × String)) (k v : String) :
    lookupColor (setColor colors k v) k = some v := by
  induction colors with
  | nil => simp [setColor, lookupColor]
  | cons p rest ih =>
    obtain ⟨pk, pv⟩ := p
    by_cases h : pk = k
    · simp [setColor, lookupColor, h]
    · simp [setColor, lookupColor, h, ih]

/-- C6 counterexample: renaming `"Speaker 1"` to `"Alice"` when `"Alice"`
already has a cached colour keeps Alice's own colour, so the lookup for the new
label does not equal the colour previously cached for the old label, as the
claim universally asserts. -/
theorem c6_color_inherit_counterexample :
    lookupColor (saveSpeakerName
        ⟨[⟨"Speaker 1", 0, 1000, "hi"⟩],
          [("Speaker 1", "bg-blue-500"), ("Alice", "bg-red-500")]⟩
        "Speaker 1" "Alice").colors "Alice" = some "bg-red-500" ∧
    lookupColor [("Speaker 1", "bg-blue-500"), ("Alice", "bg-red-500")] "Speaker 1" =
      some "bg-blue-500" ∧
    (some "bg-red-500" : Option String) ≠ some "bg-blue-500" := by
  decide

/-- C6 (amended): a committed rename rewrites exactly the segments carrying the
old label and leaves the rest untouched; the new label inherits the old label's
cached colour provided the new label has no cached colour of its own; and the
spec's concrete scenario (three `"Speaker 1"` segments, two `"Speaker 2"`
segments, `"Alice"` uncached) behaves exactly as claimed. -/
theorem c6_renameSpeaker_amended :
    (∀ (st : TranscriptState) (old raw : String), jsTrimStr raw ≠ "" → jsTrimStr raw ≠ old →
      List.Forall₂ (fun s s' =>
          (s.speaker_id = old → s' = { s with speaker_id := jsTrimStr raw }) ∧
          (s.speaker_id ≠ old → s' = s))
        st.segments (saveSpeakerName st old raw).segments) ∧
    (∀ (st : TranscriptState) (old raw c : String), jsTrimStr raw ≠ "" → jsTrimStr raw ≠ old →
      lookupColor st.colors (jsTrimStr raw) = none → lookupColor st.colors old = some c → c ≠ "" →
      lookupColor (saveSpeakerName st old raw).colors (jsTrimStr raw) = some c) ∧
    ((saveSpeakerName
        ⟨[⟨"Speaker 1", 0, 10, "a"⟩, ⟨"Speaker 1", 10, 20, "b"⟩, ⟨"Speaker 1", 20, 30, "c"⟩,
          ⟨"Speaker 2", 30, 40, "d"⟩, ⟨"Speaker 2", 40, 50, "e"⟩],
          [("Speaker 1", "bg-blue-500")]⟩ "Speaker 1" "Alice").segments =
        [⟨"Alice", 0, 10, "a"⟩, ⟨"Alice", 10, 20, "b"⟩, ⟨"Alice", 20, 30, "c"⟩,
          ⟨"Speaker 2", 30, 40, "d"⟩, ⟨"Speaker 2", 40, 50, "e"⟩] ∧
      lookupColor (saveSpeakerName
        ⟨[⟨"Speaker 1", 0, 10, "a"⟩, ⟨"Speaker 1", 10, 20, "b"⟩, ⟨"Speaker 1", 20, 30, "c"⟩,
          ⟨"Speaker 2", 30, 40, "d"⟩, ⟨"Speaker 2", 40, 50, "e"⟩],
          [("Speaker 1", "bg-blue-500")]⟩ "Speaker 1" "Alice").colors "Alice" =
        some "bg-blue-500") := by
  refine ⟨fun st old raw h1 h2 => ?_, fun st old raw c h1 h2 hnn hold hc => ?_, by decide⟩
  · have hcond : ¬ (jsTrimStr raw = "" ∨ jsTrimStr raw = old) := by
      simp [h1, h2]
    simp only [saveSpeakerName, if_neg hcond]
    refine forall₂_map_self _ _ (fun a => ?_) st.segments
    by_cases hs : a.speaker_id = old <;> simp [hs]
  · have hcond : ¬ (jsTrimStr raw = "" ∨ jsTrimStr raw = old) := by
      simp [h1, h2]
    have hce : c.isEmpty = false := by
      cases hs : c.isEmpty
      · rfl
      · exact absurd ((String.isEmpty_iff c).mp hs) hc
    have ht1 : colorTruthy st.colors (jsTrimStr raw) = false := by
      simp [colorTruthy, hnn]
    have ht2 : colorTruthy st.colors old = true := by
      simp [colorTruthy, hold, hce]
    simp only [saveSpeakerName, if_neg hcond, ht1, ht2, Bool.not_false, Bool.and_true,
      if_pos, hold, Option.getD_some]
    exact lookupColor_setColor_self st.colors (jsTrimStr raw) c

/-- C6 witness: the amended theorem applied to the spec's concrete scenario. -/
theorem c6_renameSpeaker_amended_witness :
    List.Forall₂ (fun s s' =>
        (s.speaker_id = "Speaker 1" → s' = { s with speaker_id := "Alice" }) ∧
        (s.speaker_id ≠ "Speaker 1" → s' = s))
      [⟨"Speaker 1", 0, 10, "a"⟩, ⟨"Speaker 2", 30, 40, "d"⟩]
      (saveSpeakerName ⟨[⟨"Speaker 1", 0, 10, "a"⟩, ⟨"Speaker 2", 30, 40, "d"⟩],
        [("Speaker 1", "bg-blue-500")]⟩ "Speaker 1" "Alice").segments ∧
    lookupColor (saveSpeakerName ⟨[⟨"Speaker 1", 0, 10, "a"⟩, ⟨"Speaker 2", 30, 40, "d"⟩],
        [("Speaker 1", "bg-blue-500")]⟩ "Speaker 1" "Alice").colors "Alice" =
      some "bg-blue-500" :=
  ⟨c6_renameSpeaker_amended.1
      ⟨[⟨"Speaker 1", 0, 10, "a"⟩, ⟨"Speaker 2", 30, 40, "d"⟩], [("Speaker 1", "bg-blue-500")]⟩
      "Speaker 1" "Alice" (by decide) (by decide),
    c6_renameSpeaker_amended.2.1
      ⟨[⟨"Speaker 1", 0, 10, "a"⟩, ⟨"Speaker 2", 30, 40, "d"⟩], [("Speaker 1", "bg-blue-500")]⟩
      "Speaker 1" "Alice" "bg-blue-500" (by decide) (by decide) (by decide) (by decide)
      (by decide)⟩

/-! ### C10: time formatting -/

/-- For a nonnegative rational the integer floor is the natural floor. -/
theorem floor_int_of_nonneg (x : ℚ) (hx : 0 ≤ x) : ⌊x⌋ = (⌊x⌋₊ : ℤ) := by
  rw [← Int.floor_toNat x, Int.toNat_of_nonneg (Int.floor_nonneg.mpr hx)]

/-- `jsIntToString` of a natural number is its decimal representation. -/
theorem jsIntToString_natCast (m : ℕ) : jsIntToString (m : ℤ) = Nat.repr m := by
  have : ¬ ((m : ℤ) < 0) := by omega
  simp [jsIntToString, this]

/-- The shape of `formatTime` on a nonnegative number of milliseconds: the full
minute count `⌊ms / 60000⌋` and the second remainder, each zero-padded to two
characters — the minutes are never reduced modulo 60. -/
theorem formatTime_shape (q : ℚ) (h : 0 ≤ q) :
    formatTime (.num q) =
      padTwo (Nat.repr ⌊q / 60000⌋₊) ++ ":" ++ padTwo (Nat.repr (⌊q / 1000⌋₊ % 60)) := by
  have h1000 : (0 : ℚ) ≤ q / 1000 := by positivity
  have hts : (0 : ℤ) ≤ ⌊q / 1000⌋ := Int.floor_nonneg.mpr h1000
  have hNQ : ((⌊q / 1000⌋₊ : ℕ) : ℤ) = ⌊q / 1000⌋ := (floor_int_of_nonneg _ h1000).symm
  show padTwo (jsIntToString ⌊((⌊q / 1000⌋ : ℤ) : ℚ) / 60⌋) ++ ":" ++
      padTwo (jsIntToString (Int.tmod ⌊q / 1000⌋ 60)) = _
  have hmincast : ((⌊q / 1000⌋ : ℤ) : ℚ) = ((⌊q / 1000⌋₊ : ℕ) : ℚ) := by
    rw [← hNQ]
    push_cast
    rfl
  have hmin : ⌊((⌊q / 1000⌋ : ℤ) : ℚ) / 60⌋ = ((⌊q / 1000⌋₊ / 60 : ℕ) : ℤ) := by
    rw [hmincast]
    have h60 : ((60 : ℚ)) = ((60 : ℕ) : ℚ) := by norm_num
    rw [floor_int_of_nonneg _ (by positivity), h60, Nat.floor_div_nat, Nat.floor_natCast]
  have hsixty : ⌊q / 60000⌋₊ = ⌊q / 1000⌋₊ / 60 := by
    have h60 : ((60 : ℚ)) = ((60 : ℕ) : ℚ) := by norm_num
    have : q / 60000 = q / 1000 / (60 : ℚ) := by
      rw [div_div]
      norm_num
    rw [this, h60, Nat.floor_div_nat]
  have hmod : Int.tmod ⌊q / 1000⌋ 60 = ((⌊q / 1000⌋₊ % 60 : ℕ) : ℤ) := by
    rw [Int.tmod_eq_emod hts (by norm_num), ← hNQ]
    omega
  rw [hmin, hmod, jsIntToString_natCast, jsIntToString_natCast, hsixty]

/-- C10 counterexample: at exactly 60 minutes (`3600000` ms, an input of "60
minutes or more") the minutes field is `"60"` — two characters, not "longer
than two digits" as the claim asserts. -/
theorem c10_sixty_minutes_counterexample :
    formatTime (.num 3600000) = "60:00" ∧
    ("60:00".data.takeWhile fun c => c ≠ ':') = "60".data ∧
    ¬ 2 < ("60:00".data.takeWhile fun c => c ≠ ':').length ∧
    (3600000 : ℚ) = 60 * 60000 := by
  refine ⟨?_, by decide, by decide, by norm_num⟩
  rw [formatTime_shape 3600000 (by norm_num)]
  have h1 : ⌊(3600000 : ℚ) / 60000⌋₊ = 60 := by norm_num
  have h2 : ⌊(3600000 : ℚ) / 1000⌋₊ = 3600 := by norm_num
  rw [h1, h2]
  decide

/-- C10 (amended): `formatTime` is total; `NaN`, `null` and `undefined` map to
`"00:00"`; a nonnegative input renders the full minute count `⌊ms / 60000⌋`
and the second remainder `⌊ms / 1000⌋ % 60`, each zero-padded to two
characters, with no hour rollover — so 100 minutes render as the three-digit
`"100:00"` while 60–99 minutes render a two-digit minutes field such as
`"60:00"`. -/
theorem c10_formatTime_amended :
    formatTime .null = "00:00" ∧ formatTime .undef = "00:00" ∧ formatTime .nan = "00:00" ∧
    formatTime (.num 6000000) = "100:00" ∧
    formatTime (.num 3600000) = "60:00" ∧
    2 < ("100:00".data.takeWhile fun c => c ≠ ':').length ∧
    (∀ q : ℚ, 0 ≤ q →
      formatTime (.num q) =
        padTwo (Nat.repr ⌊q / 60000⌋₊) ++ ":" ++ padTwo (Nat.repr (⌊q / 1000⌋₊ % 60))) := by
  refine ⟨rfl, rfl, rfl, ?_, ?_, by decide, fun q hq => formatTime_shape q hq⟩
  · rw [formatTime_shape 6000000 (by norm_num)]
    have h1 : ⌊(6000000 : ℚ) / 60000⌋₊ = 100 := by norm_num
    have h2 : ⌊(6000000 : ℚ) / 1000⌋₊ = 6000 := by norm_num
    rw [h1, h2]
    decide
  · rw [formatTime_shape 3600000 (by norm_num)]
    have h1 : ⌊(3600000 : ℚ) / 60000⌋₊ = 60 := by norm_num
    have h2 : ⌊(3600000 : ℚ) / 1000⌋₊ = 3600 := by norm_num
    rw [h1, h2]
    decide

/-- C10 witness: the amended shape applied at 90 seconds. -/
theorem c10_formatTime_amended_witness :
    formatTime (.num 90000) =
      padTwo (Nat.repr ⌊(90000 : ℚ) / 60000⌋₊) ++ ":" ++
        padTwo (Nat.repr (⌊(90000 : ℚ) / 1000⌋₊ % 60)) :=
  c10_formatTime_amended.2.2.2.2.2.2 90000 (by decide)

/-! ### C1: speaker statistics -/

/-- Accumulating a duration adds it to the multiset of values. -/
theorem addDuration_snd_sum (l : List (String × ℤ)) (k : String) (d : ℤ) :
    ((addDuration l k d).map Prod.snd).sum = (l.map Prod.snd).sum + d := by
  induction l with
  | nil => simp [addDuration]
  | cons p rest ih =>
    obtain ⟨pk, pv⟩ := p
    by_cases h : pk = k
    · simp only [addDuration, if_pos h, List.map_cons, List.sum_cons]
      ring
    · simp only [addDuration, if_neg h, List.map_cons, List.sum_cons, ih]
      ring

/-- Accumulating a duration never empties the table. -/
theorem addDuration_ne_nil (l : List (String × ℤ)) (k : String) (d : ℤ) :
    addDuration l k d ≠ [] := by
  cases l with
  | nil => simp [addDuration]
  | cons p rest =>
    obtain ⟨pk, pv⟩ := p
    by_cases h : pk = k <;> simp [addDuration, h]

/-- The per-speaker durations sum to the total duration. -/
theorem statsOf_snd_sum (segs : List Segment) :
    ((statsOf segs).map Prod.snd).sum = totalDuration segs := by
  have main : ∀ (l : List Segment) (acc : List (String × ℤ)),
      ((l.foldl (fun acc seg => addDuration acc seg.speaker_id (seg.stop - seg.start)) acc).map
          Prod.snd).sum =
        (acc.map Prod.snd).sum + (l.map fun seg => seg.stop - seg.start).sum := by
    intro l
    induction l with
    | nil => intro acc; simp
    | cons s rest ih =>
      intro acc
      simp only [List.foldl_cons, ih, addDuration_snd_sum, List.map_cons, List.sum_cons]
      ring
  simpa [statsOf, totalDuration] using main segs []

/-- The duration table is nonempty whenever the segment list is. -/
theorem statsOf_ne_nil (segs : List Segment) (h : segs ≠ []) : statsOf segs ≠ [] := by
  have main : ∀ (l : List Segment) (acc : List (String × ℤ)), acc ≠ [] →
      l.foldl (fun acc seg => addDuration acc seg.speaker_id (seg.stop - seg.start)) acc ≠ [] := by
    intro l
    induction l with
    | nil => intro acc hacc; simpa using hacc
    | cons s rest ih => intro acc hacc; exact ih _ (addDuration_ne_nil _ _ _)
  cases segs with
  | nil => exact absurd rfl h
  | cons s rest =>
    simp only [statsOf, List.foldl_cons]
    exact main rest _ (addDuration_ne_nil _ _ _)

/-- Insertion produces a permutation of consing. -/
theorem insertByShare_perm (x : SpeakerStat) (l : List SpeakerStat) :
    List.Perm (insertByShare x l) (x :: l) := by
  induction l with
  | nil => exact List.Perm.refl _
  | cons y ys ih =>
    by_cases h : y.percentage ≤ x.percentage
    · simp only [insertByShare, if_pos h]
      exact List.Perm.refl _
    · simp only [insertByShare, if_neg h]
      exact (List.Perm.cons y ih).trans (List.Perm.swap x y ys)

/-- The descending sort permutes its input. -/
theorem sortByShare_perm (l : List SpeakerStat) : List.Perm (sortByShare l) l := by
  induction l with
  | nil => exact List.Perm.refl _
  | cons x xs ih => exact (insertByShare_perm x (sortByShare xs)).trans (ih.cons x)

/-- The descending sort is empty exactly on the empty list. -/
theorem sortByShare_eq_nil_iff (l : List SpeakerStat) : sortByShare l = [] ↔ l = [] := by
  constructor
  · intro h
    have hl := (sortByShare_perm l).length_eq
    rw [h] at hl
    exact List.eq_nil_of_length_eq_zero hl.symm
  · rintro rfl
    rfl

/-- Triangle inequality for list sums of rationals. -/
theorem abs_list_sum_le : ∀ l : List ℚ, |l.sum| ≤ (l.map fun x => |x|).sum
  | [] => by simp
  | x :: xs => by
    simp only [List.sum_cons, List.map_cons]
    exact (abs_add _ _).trans (by linarith [abs_list_sum_le xs])

/-- `Math.round` is within a half of its argument. -/
theorem jsRound_close (x : ℚ) : |(jsRound x : ℚ) - x| ≤ 1 / 2 := by
  have h1 : (jsRound x : ℚ) ≤ x + 1 / 2 := Int.floor_le (x + 1 / 2)
  have h2 : x + 1 / 2 < (jsRound x : ℚ) + 1 := Int.lt_floor_add_one (x + 1 / 2)
  rw [abs_le]
  exact ⟨by linarith, by linarith⟩

/-- The sum of roundings is within half the length of the exact sum. -/
theorem roundSum_close : ∀ xs : List ℚ,
    |(((xs.map jsRound).sum : ℤ) : ℚ) - xs.sum| ≤ xs.length * (1 / 2)
  | [] => by simp
  | x :: xs => by
    have ih := roundSum_close xs
    have hx := jsRound_close x
    have hcast : ((((x :: xs).map jsRound).sum : ℤ) : ℚ) =
        (jsRound x : ℚ) + (((xs.map jsRound).sum : ℤ) : ℚ) := by
      simp [List.map_cons, List.sum_cons]
    rw [hcast, List.sum_cons, List.length_cons]
    have key : (jsRound x : ℚ) + (((xs.map jsRound).sum : ℤ) : ℚ) - (x + xs.sum) =
        ((jsRound x : ℚ) - x) + ((((xs.map jsRound).sum : ℤ) : ℚ) - xs.sum) := by
      ring
    rw [key]
    have := abs_add ((jsRound x : ℚ) - x) ((((xs.map jsRound).sum : ℤ) : ℚ) - xs.sum)
    have hlen : ((xs.length + 1 : ℕ) : ℚ) * (1 / 2) = xs.length * (1 / 2) + 1 / 2 := by
      push_cast
      ring
    rw [hlen]
    linarith

/-- Distributing the share computation over a sum of durations. -/
theorem sum_div_mul (T : ℚ) : ∀ l : List ℤ,
    (l.map fun d : ℤ => (d : ℚ) / T * 100).sum = ((l.sum : ℤ) : ℚ) / T * 100
  | [] => by simp
  | d :: ds => by
    rw [List.map_cons, List.sum_cons, sum_div_mul T ds, List.sum_cons, Int.cast_add, add_div,
      add_mul]

/-- C1 counterexample: a nonempty transcript whose only segment has zero
duration has total duration zero, yet `speakerStats` returns a nonempty result
(in JS, an entry with a `NaN` percentage) — not the empty result the claim
requires for zero total duration. -/
theorem c1_zero_total_counterexample :
    totalDuration [⟨"A", 1000, 1000, "x"⟩] = 0 ∧
    speakerStats [⟨"A", 1000, 1000, "x"⟩] ≠ [] := by
  refine ⟨by decide, ?_⟩
  simp [speakerStats, statsOf, addDuration, sortByShare, insertByShare]

/-- C1 (amended): `speakerStats` returns the empty result exactly when the
segment list is empty (a nonempty list of zero-length segments still produces
one entry per speaker), and whenever the total duration is positive the
rounded percentages sum to 100 up to rounding: the sum deviates from 100 by at
most half a percentage point per speaker. -/
theorem c1_speakerStats_amended :
    (∀ segs : List Segment, speakerStats segs = [] ↔ segs = []) ∧
    (∀ segs : List Segment, 0 < totalDuration segs →
      |2 * ((((speakerStats segs).map SpeakerStat.percentage).sum : ℤ) : ℚ) - 200| ≤
        ((speakerStats segs).length : ℚ)) := by
  constructor
  · intro segs
    constructor
    · intro h
      by_contra hne
      have h1 := statsOf_ne_nil segs hne
      have h2 : (statsOf segs).map (fun p =>
          (⟨p.1, jsRound (((p.2 : ℤ) : ℚ) / ((totalDuration segs : ℤ) : ℚ) * 100)⟩ :
            SpeakerStat)) ≠ [] := by
        simpa using h1
      exact h2 ((sortByShare_eq_nil_iff _).mp h)
    · rintro rfl
      rfl
  · intro segs hT
    have hTne : ((totalDuration segs : ℤ) : ℚ) ≠ 0 := by
      exact_mod_cast (by omega : totalDuration segs ≠ 0)
    have hxs_sum : ((statsOf segs).map
        (fun p => ((p.2 : ℤ) : ℚ) / ((totalDuration segs : ℤ) : ℚ) * 100)).sum = 100 := by
      have h1 : (statsOf segs).map
          (fun p => ((p.2 : ℤ) : ℚ) / ((totalDuration segs : ℤ) : ℚ) * 100) =
          ((statsOf segs).map Prod.snd).map
            (fun d : ℤ => (d : ℚ) / ((totalDuration segs : ℤ) : ℚ) * 100) := by
        rw [List.map_map]
        rfl
      rw [h1, sum_div_mul, statsOf_snd_sum, div_self hTne, one_mul]
    have hSsum : ((speakerStats segs).map SpeakerStat.percentage).sum =
        ((((statsOf segs).map
          (fun p => ((p.2 : ℤ) : ℚ) / ((totalDuration segs : ℤ) : ℚ) * 100)).map jsRound)).sum := by
      have hperm : List.Perm ((speakerStats segs).map SpeakerStat.percentage)
          (((statsOf segs).map (fun p =>
            (⟨p.1, jsRound (((p.2 : ℤ) : ℚ) / ((totalDuration segs : ℤ) : ℚ) * 100)⟩ :
              SpeakerStat))).map SpeakerStat.percentage) :=
        List.Perm.map _ (sortByShare_perm _)
      rw [hperm.sum_eq, List.map_map, List.map_map]
      rfl
    have hlen : ((speakerStats segs).length : ℚ) =
        (((statsOf segs).map
          (fun p => ((p.2 : ℤ) : ℚ) / ((totalDuration segs : ℤ) : ℚ) * 100)).length : ℚ) := by
      have h1 := (sortByShare_perm ((statsOf segs).map (fun p =>
          (⟨p.1, jsRound (((p.2 : ℤ) : ℚ) / ((totalDuration segs : ℤ) : ℚ) * 100)⟩ :
            SpeakerStat)))).length_eq
      simp only [speakerStats, List.length_map] at h1 ⊢
      rw [h1]
    have hclose := roundSum_close ((statsOf segs).map
      (fun p => ((p.2 : ℤ) : ℚ) / ((totalDuration segs : ℤ) : ℚ) * 100))
    rw [hxs_sum] at hclose
    rw [hSsum, hlen]
    have key : 2 * (((((statsOf segs).map
        (fun p => ((p.2 : ℤ) : ℚ) / ((totalDuration segs : ℤ) : ℚ) * 100)).map jsRound).sum :
          ℤ) : ℚ) - 200 =
        2 * ((((((statsOf segs).map
          (fun p => ((p.2 : ℤ) : ℚ) / ((totalDuration segs : ℤ) : ℚ) * 100)).map jsRound).sum :
            ℤ) : ℚ) - 100) := by
      ring
    rw [key, abs_mul, abs_two]
    linarith [abs_nonneg ((((((statsOf segs).map
      (fun p => ((p.2 : ℤ) : ℚ) / ((totalDuration segs : ℤ) : ℚ) * 100)).map jsRound).sum :
        ℤ) : ℚ) - 100)]

/-- C1 witness: a 3000 ms speaker and a 1000 ms speaker of a 4000 ms total
(percentages 75 and 25). -/
theorem c1_speakerStats_amended_witness :
    |2 * ((((speakerStats [⟨"A", 0, 3000, "a"⟩, ⟨"B", 3000, 4000, "b"⟩]).map
        SpeakerStat.percentage).sum : ℤ) : ℚ) - 200| ≤
      ((speakerStats [⟨"A", 0, 3000, "a"⟩, ⟨"B", 3000, 4000, "b"⟩]).length : ℚ) :=
  c1_speakerStats_amended.2 [⟨"A", 0, 3000, "a"⟩, ⟨"B", 3000, 4000, "b"⟩] (by decide)

/-! ### C2: SSE chunk handling -/

/-- Unfolding of `splitBlocks` on a head that does not start the block
delimiter. -/
theorem splitBlocks_cons_of (c : Char) (rest : List Char)
    (h : ¬(c = '\n' ∧ rest.head? = some '\n')) :
    splitBlocks (c :: rest) =
      match splitBlocks rest with
      | [] => [[c]]
      | p :: ps => (c :: p) :: ps := by
  rw [splitBlocks.eq_def]
  split
  · simp_all
  · rename_i rest' heq
    injection heq with h1 h2
    exact absurd ⟨h1, by rw [h2]; rfl⟩ h
  · rename_i x c' rest' hne heq
    injection heq with h1 h2
    subst h1
    subst h2
    rfl

/-- A split always returns at least one part. -/
theorem splitBlocks_ne_nil (l : List Char) : splitBlocks l ≠ [] := by
  have main : ∀ (n : ℕ) (l : List Char), l.length ≤ n → splitBlocks l ≠ [] := by
    intro n
    induction n with
    | zero =>
      intro l hl
      have h0 : l = [] := List.eq_nil_of_length_eq_zero (Nat.le_zero.mp hl)
      subst h0
      simp [splitBlocks]
    | succ n ih =>
      intro l hl
      rcases l with _ | ⟨c, rest⟩
      · simp [splitBlocks]
      · by_cases hc : c = '\n' ∧ rest.head? = some '\n'
        · obtain ⟨rfl, hh⟩ := hc
          rcases rest with _ | ⟨c2, rest'⟩
          · simp at hh
          · have hc2 : c2 = '\n' := by simpa using hh
            subst hc2
            rw [show splitBlocks ('\n' :: '\n' :: rest') = [] :: splitBlocks rest' from rfl]
            simp
        · rw [splitBlocks_cons_of c rest hc]
          cases hsb : splitBlocks rest <;> simp
  exact main l.length l le_rfl

/-- A split without any delimiter returns the input itself. -/
theorem splitBlocks_singleton (l p : List Char) (h : splitBlocks l = [p]) : p = l := by
  have main : ∀ (n : ℕ) (l p : List Char), l.length ≤ n → splitBlocks l = [p] → p = l := by
    intro n
    induction n with
    | zero =>
      intro l p hl h
      have h0 : l = [] := List.eq_nil_of_length_eq_zero (Nat.le_zero.mp hl)
      subst h0
      simp [splitBlocks] at h
      exact h
    | succ n ih =>
      intro l p hl h
      rcases l with _ | ⟨c, rest⟩
      · simp [splitBlocks] at h
        exact h
      · by_cases hc : c = '\n' ∧ rest.head? = some '\n'
        · obtain ⟨rfl, hh⟩ := hc
          rcases rest with _ | ⟨c2, rest'⟩
          · simp at hh
          · have hc2 : c2 = '\n' := by simpa using hh
            subst hc2
            rw [show splitBlocks ('\n' :: '\n' :: rest') = [] :: splitBlocks rest' from rfl]
              at h
            have hne := splitBlocks_ne_nil rest'
            simp at h
            exact absurd h.2 hne
        · rw [splitBlocks_cons_of c rest hc] at h
          rcases hsb : splitBlocks rest with _ | ⟨p0, ps⟩
          · exact absurd hsb (splitBlocks_ne_nil rest)
          · rw [hsb] at h
            simp at h
            obtain ⟨h1, h2⟩ := h
            rw [h2] at hsb
            have hp0 : p0 = rest := ih rest p0 (by simp at hl; omega) hsb
            rw [← h1, hp0]
  exact main l.length l p le_rfl h

/-- Splitting a concatenation: all complete blocks of the left part, then the
split of the carried-over last fragment glued to the right part.  This is the
correctness of the buffering strategy of `confirmGenerate`. -/
theorem splitBlocks_append (s t : List Char) :
    splitBlocks (s ++ t) =
      (splitBlocks s).dropLast ++ splitBlocks ((splitBlocks s).getLastD [] ++ t) := by
  have main : ∀ (n : ℕ) (s : List Char), s.length ≤ n → ∀ t : List Char,
      splitBlocks (s ++ t) =
        (splitBlocks s).dropLast ++ splitBlocks ((splitBlocks s).getLastD [] ++ t) := by
    intro n
    induction n with
    | zero =>
      intro s hs t
      have h0 : s = [] := List.eq_nil_of_length_eq_zero (Nat.le_zero.mp hs)
      subst h0
      simp [splitBlocks]
    | succ n ih =>
      intro s hs t
      rcases s with _ | ⟨c, rest⟩
      · simp [splitBlocks]
      · by_cases hc : c = '\n' ∧ rest.head? = some '\n'
        · obtain ⟨rfl, hh⟩ := hc
          rcases rest with _ | ⟨c2, rest'⟩
          · simp at hh
          · have hc2 : c2 = '\n' := by simpa using hh
            subst hc2
            have e3 : ('\n' :: '\n' :: rest') ++ t = '\n' :: '\n' :: (rest' ++ t) := rfl
            have e4 : splitBlocks ('\n' :: '\n' :: (rest' ++ t)) =
                [] :: splitBlocks (rest' ++ t) := rfl
            have e1 : splitBlocks ('\n' :: '\n' :: rest') = [] :: splitBlocks rest' := rfl
            rw [e3, e4, e1]
            rcases hsb : splitBlocks rest' with _ | ⟨p, ps⟩
            · exact absurd hsb (splitBlocks_ne_nil rest')
            · have ihr := ih rest' (by simp at hs; omega) t
              rw [hsb] at ihr
              simp only [List.dropLast_cons₂, List.getLastD_cons] at ihr ⊢
              rw [List.cons_append, ← ihr]
        · rcases rest with _ | ⟨c2, rest'⟩
          · have e1 : splitBlocks [c] = [[c]] := by
              rw [splitBlocks_cons_of c [] (by simp)]
              rfl
            rw [e1]
            simp
          · have hcc : ¬(c = '\n' ∧ c2 = '\n') := by simpa using hc
            have hc' : ¬(c = '\n' ∧ ((c2 :: rest') ++ t).head? = some '\n') := by
              simpa using hcc
            have lhs1 : splitBlocks ((c :: c2 :: rest') ++ t) =
                match splitBlocks ((c2 :: rest') ++ t) with
                | [] => [[c]]
                | p :: ps => (c :: p) :: ps := by
              rw [show (c :: c2 :: rest') ++ t = c :: ((c2 :: rest') ++ t) from rfl,
                splitBlocks_cons_of c _ hc']
            have rhs1 : splitBlocks (c :: c2 :: rest') =
                match splitBlocks (c2 :: rest') with
                | [] => [[c]]
                | p :: ps => (c :: p) :: ps :=
              splitBlocks_cons_of c _ (by simpa using hcc)
            have ihr := ih (c2 :: rest') (by simp at hs ⊢; omega) t
            rcases hsb : splitBlocks (c2 :: rest') with _ | ⟨p, ps⟩
            · exact absurd hsb (splitBlocks_ne_nil _)
            · rw [hsb] at rhs1 ihr
              rcases ps with _ | ⟨q, qs⟩
              · have hp := splitBlocks_singleton _ _ hsb
                subst hp
                have rhs2 : splitBlocks (c :: c2 :: rest') = [c :: c2 :: rest'] := by
                  rw [rhs1]
                rw [lhs1, rhs2, List.dropLast_single, List.nil_append,
                  List.getLastD_cons, List.getLastD_nil,
                  show (c :: c2 :: rest') ++ t = c :: ((c2 :: rest') ++ t) from rfl,
                  splitBlocks_cons_of c _ hc']
              · have rhs2 : splitBlocks (c :: c2 :: rest') = (c :: p) :: q :: qs := by
                  rw [rhs1]
                rw [lhs1, rhs2, ihr, List.dropLast_cons₂, List.dropLast_cons₂]
                simp only [List.getLastD_cons]
                rfl
  exact main s.length s le_rfl t

/-- The last part of a concatenation-split comes from the right factor. -/
theorem getLastD_append_ne {α : Type} (X Y : List α) (d : α) (h : Y ≠ []) :
    (X ++ Y).getLastD d = Y.getLastD d := by
  rw [List.getLastD_eq_getLast?, List.getLastD_eq_getLast?, List.getLast?_append]
  cases hY : Y.getLast? with
  | none =>
    rcases Y with _ | ⟨y, ys⟩
    · exact absurd rfl h
    · rw [List.getLast?_eq_getLast _ (by simp)] at hY
      exact absurd hY (by simp)
  | some y => rfl

/-- Feeding one chunk and then another is the same as feeding the
concatenation: the buffer carry-over loses nothing at chunk boundaries. -/
theorem kbStep_merge (st : KbState) (a b : String) :
    kbStep (kbStep st a) b = kbStep st (a ++ b) := by
  simp only [kbStep]
  rw [String.data_append, ← List.append_assoc,
    splitBlocks_append (st.buffer ++ a.data) b.data]
  have hne := splitBlocks_ne_nil ((splitBlocks (st.buffer ++ a.data)).getLastD [] ++ b.data)
  simp only [KbState.mk.injEq]
  refine ⟨?_, ?_⟩
  · rw [getLastD_append_ne _ _ _ hne]
  · rw [List.dropLast_append_of_ne_nil _ hne, List.flatMap_append, List.append_assoc]

/-- Folding the knowledge-base consumer over chunks equals one step on their
concatenation. -/
theorem kbRun_chunking_aux : ∀ (cs : List String) (st : KbState) (a : String),
    cs.foldl kbStep (kbStep st a) = kbStep st (a ++ concatAll cs)
  | [], st, a => by
    show kbStep st a = kbStep st (a ++ "")
    rw [String.append_empty]
  | c :: cs, st, a => by
    simp only [List.foldl_cons, concatAll]
    rw [kbStep_merge, kbRun_chunking_aux cs st (a ++ c), String.append_assoc]

/-- C2 counterexample: the chat consumer (`sendChatMessage`), which handles
`answer` events, splits each chunk independently with no carry-over; fed the
spec's split pair it produces zero answer events and empty content, not one
`answer` event with content `"hello"` as the claim states. -/
theorem c2_chat_split_counterexample :
    chatAnswers ["event: answer\ndata: \x7b\"content\":\"hel", "lo\"\x7d\n\n"] = [] ∧
    (chatRun ["event: answer\ndata: \x7b\"content\":\"hel", "lo\"\x7d\n\n"]).content = "" := by
  decide

/-- C2 (amended): the knowledge-base stream consumer (`confirmGenerate`) does
buffer partial blocks across chunk boundaries — consuming any chunk list is
equivalent to consuming the single concatenated chunk, and a `status` block
split mid-payload is reassembled into exactly one event; the chat consumer has
no buffer, so the spec's `answer`/`"hello"` example holds only when the block
arrives within one chunk. -/
theorem c2_sse_buffering_amended :
    (∀ chunks : List String, kbRun chunks = kbRun [concatAll chunks]) ∧
    kbStatusMessages ["event: status\ndata: \x7b\"message\":\"hel", "lo\"\x7d\n\n"] =
      ["hello"] ∧
    (kbRun ["event: status\ndata: \x7b\"message\":\"hel", "lo\"\x7d\n\n"]).events.length = 1 ∧
    chatAnswers ["event: answer\ndata: \x7b\"content\":\"hello\"\x7d\n\n"] = ["hello"] ∧
    (chatRun ["event: answer\ndata: \x7b\"content\":\"hello\"\x7d\n\n"]).content = "hello" := by
  refine ⟨fun chunks => ?_, by decide, by decide, by decide, by decide⟩
  cases chunks with
  | nil => decide
  | cons c cs =>
    show (c :: cs).foldl kbStep ⟨[], []⟩ = [concatAll (c :: cs)].foldl kbStep ⟨[], []⟩
    simp only [List.foldl_cons, List.foldl_nil, concatAll]
    exact kbRun_chunking_aux cs ⟨[], []⟩ c

/-! ### C8: citation transformation -/

/-- A head that does not close a pair steps `hasClosePair` to the tail. -/
theorem hasClosePair_cons_of (c : Char) (rest : List Char)
    (h : ¬(c = ']' ∧ rest.head? = some ']')) :
    hasClosePair (c :: rest) = hasClosePair rest := by
  rw [hasClosePair.eq_def]
  split
  · rename_i tail heq
    injection heq with h1 h2
    exact absurd ⟨h1, by rw [h2]; rfl⟩ h
  · rename_i x c' rest' hne heq
    injection heq with h1 h2
    subst h2
    rfl
  · rename_i heq
    exact absurd heq (by simp)

/-- Removing a head that closes no pair preserves pair-freeness. -/
theorem hasClosePair_cons_down (c : Char) (X : List Char)
    (h : hasClosePair (c :: X) = false) : hasClosePair X = false := by
  rw [hasClosePair.eq_def] at h
  split at h
  · exact absurd h (by simp)
  · rename_i x c' rest' hne heq
    injection heq with h1 h2
    subst h2
    exact h
  · rename_i heq
    exact absurd heq (by simp)

/-- Unfolding of `findClose` on a head that neither closes the token nor is a
line terminator. -/
theorem findClose_cons_of (c : Char) (rest : List Char)
    (h1 : ¬(c = ']' ∧ rest.head? = some ']')) (h2 : isLineTerm c = false) :
    findClose (c :: rest) = (findClose rest).map fun p => (c :: p.1, p.2) := by
  rw [findClose.eq_def]
  split
  · rename_i heq
    exact absurd heq (by simp)
  · rename_i tail heq
    injection heq with ha hb
    exact absurd ⟨ha, by rw [hb]; rfl⟩ h1
  · rename_i x c' rest' hne heq
    injection heq with ha hb
    subst ha
    subst hb
    simp [h2]

/-- `findClose` fails immediately on any of the four line terminators. -/
theorem findClose_cons_term (c : Char) (t : List Char) (h : isLineTerm c = true) :
    findClose (c :: t) = none := by
  have hc : c ≠ ']' := by
    intro hcc
    rw [hcc] at h
    exact absurd h (by decide)
  rw [findClose.eq_def]
  split
  · rename_i heq
    exact absurd heq (by simp)
  · rename_i tail heq
    injection heq with ha hb
    exact absurd ha hc
  · rename_i x c' rest' hne heq
    injection heq with ha hb
    subst ha
    subst hb
    simp [h]

/-- Completeness of the lazy close scan: when the identifier contains no line
terminator and no `]]` (even jointly with the closing bracket), the first `]]`
after it is found exactly there. -/
theorem findClose_complete : ∀ (name t : List Char), (∀ x ∈ name, isLineTerm x = false) →
    hasClosePair (name ++ [']']) = false →
    findClose (name ++ ']' :: ']' :: t) = some (name, t)
  | [], t, _, _ => rfl
  | c :: name', t, hnl, hncp => by
    have hc_nl : isLineTerm c = false := hnl c (List.mem_cons_self c name')
    have hnl' : ∀ x ∈ name', isLineTerm x = false :=
      fun x hx => hnl x (List.mem_cons_of_mem c hx)
    have hncp' : hasClosePair (name' ++ [']']) = false :=
      hasClosePair_cons_down c _ (by simpa using hncp)
    have hjunction : ¬(c = ']' ∧ (name' ++ ']' :: ']' :: t).head? = some ']') := by
      rintro ⟨rfl, hh⟩
      rcases name' with _ | ⟨d, name''⟩
      · simp [hasClosePair] at hncp
      · have hd : d = ']' := by simpa using hh
        subst hd
        simp [hasClosePair] at hncp
    rw [show (c :: name') ++ ']' :: ']' :: t = c :: (name' ++ ']' :: ']' :: t) from rfl,
      findClose_cons_of c _ hjunction hc_nl,
      findClose_complete name' t hnl' hncp']
    rfl

/-- The scanner leaves nothing on empty input. -/
theorem scanCit_nil (pid : String) (n : ℕ) : scanCit pid n [] = [] := by
  cases n <;> rfl

/-- One token at the head of the input is replaced and scanning continues
after its closing `]]`. -/
theorem scanCit_tok (pid : String) (n : ℕ) (name t : List Char)
    (hfc : findClose (name ++ ']' :: ']' :: t) = some (name, t)) :
    scanCit pid (n + 1) ('[' :: '[' :: (name ++ ']' :: ']' :: t)) =
      citationReplacement pid name ++ scanCit pid n t := by
  show (match headTok ('[' :: '[' :: (name ++ ']' :: ']' :: t)) with
    | some (cap, rest) => citationReplacement pid cap ++ scanCit pid n rest
    | none => '[' :: scanCit pid n ('[' :: (name ++ ']' :: ']' :: t))) = _
  rw [show headTok ('[' :: '[' :: (name ++ ']' :: ']' :: t)) =
      findClose (name ++ ']' :: ']' :: t) from rfl, hfc]

set_option maxRecDepth 4000 in
/-- C8: the two concrete behaviours of the spec — `[[Minutes_Standup_42]]`
becomes a navigable reference to the minutes view of recording 42 labelled
`"Standup"` with the minutes icon, and `[[Unknown_Format]]` becomes a
non-interactive badge showing the identifier — and, in general, any
well-formed single token `[[name]]` (no line terminator, no premature `]]`) is
replaced by exactly its classification-based replacement element. -/
theorem c8_transformCitations :
    (transformCitations "7" "See [[Minutes_Standup_42]] for details" =
      String.mk ("See ".data ++
        anchorHtml "/recording/42/minutes".data "minutes".data "42".data [] "Standup".data
          "event_note".data ++ " for details".data)) ∧
    (transformCitations "7" "See [[Unknown_Format]]" =
      String.mk ("See ".data ++ badgeHtml "description".data "Unknown_Format".data)) ∧
    (∀ (pid : String) (name : List Char), (∀ x ∈ name, isLineTerm x = false) →
      hasClosePair (name ++ [']']) = false →
      transformCitations pid (String.mk ('[' :: '[' :: (name ++ [']', ']']))) =
        String.mk (citationReplacement pid name)) := by
  refine ⟨by decide, by decide, fun pid name hnl hncp => ?_⟩
  have hfc : findClose (name ++ ']' :: ']' :: ([] : List Char)) = some (name, []) :=
    findClose_complete name [] hnl hncp
  show String.mk (scanCit pid (('[' :: '[' :: (name ++ [']', ']'])).length)
      ('[' :: '[' :: (name ++ [']', ']']))) = _
  have hlen : ('[' :: '[' :: (name ++ [']', ']'])).length = name.length + 4 := by
    simp
  rw [hlen, scanCit_tok pid (name.length + 3) name [] hfc, scanCit_nil, List.append_nil]

/-- C8 witness: the general single-token clause applied to a transcript
citation. -/
theorem c8_transformCitations_witness :
    transformCitations "9"
        (String.mk ('[' :: '[' :: ("Transcript_Kickoff_8".data ++ [']', ']']))) =
      String.mk (citationReplacement "9" "Transcript_Kickoff_8".data) :=
  c8_transformCitations.2.2 "9" "Transcript_Kickoff_8".data (by decide) (by decide)

/-! ### C9: idempotence of the citation transform -/

/-- Any head preserves an existing close pair. -/
theorem hasClosePair_cons_true (c : Char) (X : List Char) (h : hasClosePair X = true) :
    hasClosePair (c :: X) = true := by
  rw [hasClosePair.eq_def]
  split
  · rfl
  · rename_i x c' rest' hne heq
    injection heq with h1 h2
    subst h2
    exact h
  · rename_i heq
    exact absurd heq (by simp)

/-- A close pair is exactly a `]]` factorisation. -/
theorem hasClosePair_iff (X : List Char) :
    hasClosePair X = true ↔ ∃ u v, X = u ++ ']' :: ']' :: v := by
  constructor
  · have main : ∀ (n : ℕ) (X : List Char), X.length ≤ n → hasClosePair X = true →
        ∃ u v, X = u ++ ']' :: ']' :: v := by
      intro n
      induction n with
      | zero =>
        intro X hX h
        have h0 : X = [] := List.eq_nil_of_length_eq_zero (Nat.le_zero.mp hX)
        subst h0
        simp [hasClosePair] at h
      | succ n ih =>
        intro X hX h
        rw [hasClosePair.eq_def] at h
        split at h
        · rename_i tail
          exact ⟨[], tail, rfl⟩
        · rename_i x hd tl hcontra
          obtain ⟨u, v, huv⟩ := ih tl (by simp at hX; omega) h
          exact ⟨hd :: u, v, by rw [huv]; rfl⟩
        · simp at h
    exact main X.length X le_rfl
  · rintro ⟨u, v, rfl⟩
    induction u with
    | nil => rfl
    | cons c u ih => exact hasClosePair_cons_true c _ ih

/-- Pair-freeness restricts to a left factor. -/
theorem ncp_append_left (X Y : List Char) (h : hasClosePair (X ++ Y) = false) :
    hasClosePair X = false := by
  by_contra hX
  obtain ⟨u, v, rfl⟩ := (hasClosePair_iff X).mp (by simpa using hX)
  have : hasClosePair ((u ++ ']' :: ']' :: v) ++ Y) = true :=
    (hasClosePair_iff _).mpr ⟨u, v ++ Y, by simp⟩
  rw [this] at h
  exact absurd h (by simp)

/-- Pair-freeness restricts to a right factor. -/
theorem ncp_append_right (X Y : List Char) (h : hasClosePair (X ++ Y) = false) :
    hasClosePair Y = false := by
  by_contra hY
  obtain ⟨u, v, rfl⟩ := (hasClosePair_iff Y).mp (by simpa using hY)
  have : hasClosePair (X ++ (u ++ ']' :: ']' :: v)) = true :=
    (hasClosePair_iff _).mpr ⟨X ++ u, v, by simp⟩
  rw [this] at h
  exact absurd h (by simp)

/-- Pair-freeness of a concatenation from pair-freeness of the factors and a
benign junction. -/
theorem ncp_append_of : ∀ (X Y : List Char), hasClosePair X = false →
    hasClosePair Y = false → (X.getLast? ≠ some ']' ∨ Y.head? ≠ some ']') →
    hasClosePair (X ++ Y) = false
  | [], Y, _, hY, _ => hY
  | [x], Y, hX, hY, hj => by
    have hx : ¬(x = ']' ∧ Y.head? = some ']') := by
      rintro ⟨rfl, hh⟩
      rcases hj with hj | hj
      · exact hj rfl
      · exact hj hh
    rw [List.singleton_append, hasClosePair_cons_of x Y hx]
    exact hY
  | x1 :: x2 :: X', Y, hX, hY, hj => by
    have h12 : ¬(x1 = ']' ∧ x2 = ']') := by
      rintro ⟨rfl, rfl⟩
      simp [hasClosePair] at hX
    have hX' : hasClosePair (x2 :: X') = false := hasClosePair_cons_down x1 _ hX
    have hj' : (x2 :: X').getLast? ≠ some ']' ∨ Y.head? ≠ some ']' := by
      rcases hj with hj | hj
      · left
        rwa [List.getLast?_cons_cons] at hj
      · right
        exact hj
    have ih := ncp_append_of (x2 :: X') Y hX' hY hj'
    rw [show (x1 :: x2 :: X') ++ Y = x1 :: ((x2 :: X') ++ Y) from rfl,
      hasClosePair_cons_of x1 _ (by rintro ⟨rfl, hh⟩; simp at hh; exact h12 ⟨rfl, hh⟩)]
    exact ih

/-- A list without `]` has no close pair. -/
theorem ncp_of_no_bracket (l : List Char) (h : ∀ c ∈ l, c ≠ ']') :
    hasClosePair l = false := by
  by_contra hl
  obtain ⟨u, v, rfl⟩ := (hasClosePair_iff l).mp (by simpa using hl)
  exact h ']' (by simp) rfl

/-- The wrap pattern `literal ++ insert ++ literal` of every template line
is pair-free when the insert is and the literals touch it with non-`]`
characters. -/
theorem ncp_wrap (L R ins : List Char) (hL : hasClosePair L = false)
    (hR : hasClosePair R = false) (hLlast : L.getLast? ≠ some ']')
    (hRhead : R.head? ≠ some ']') (hins : hasClosePair ins = false) :
    hasClosePair ((L ++ ins) ++ R) = false :=
  ncp_append_of _ _ (ncp_append_of _ _ hL hins (Or.inl hLlast)) hR (Or.inr hRhead)

/-- Any head preserves an existing open pair. -/
theorem hasOpenPair_cons_true (c : Char) (X : List Char) (h : hasOpenPair X = true) :
    hasOpenPair (c :: X) = true := by
  rw [hasOpenPair.eq_def]
  split
  · rfl
  · rename_i x c' rest' hne heq
    injection heq with h1 h2
    subst h2
    exact h
  · rename_i heq
    exact absurd heq (by simp)

/-- A `[[` factorisation witnesses an open pair. -/
theorem hasOpenPair_of_decomp (l x y : List Char) (h : l = x ++ '[' :: '[' :: y) :
    hasOpenPair l = true := by
  subst h
  induction x with
  | nil => rfl
  | cons c u ih => exact hasOpenPair_cons_true c _ ih

/-- A list without `[[` is trivially safe. -/
theorem safeTail_of_no_open (l : List Char) (h : hasOpenPair l = false) : SafeTail l := by
  intro x y hdec
  rw [hasOpenPair_of_decomp l x y hdec] at h
  exact absurd h (by simp)

/-- Gluing a pair-free line onto a safe tail through a line break stays safe. -/
theorem safeTail_step (A B : List Char) (hA : hasClosePair A = false) (hB : SafeTail B) :
    SafeTail (A ++ '\n' :: B) := by
  intro x y hdec
  rcases List.append_eq_append_iff.mp hdec with ⟨a', ha1, ha2⟩ | ⟨c', hc1, hc2⟩
  · rcases a' with _ | ⟨e, a''⟩
    · simp at ha2
    · rw [List.cons_append] at ha2
      injection ha2 with h1 h2
      exact hB a'' y h2
  · rcases c' with _ | ⟨e, c''⟩
    · simp at hc2
    · rw [List.cons_append] at hc2
      injection hc2 with h1 h2
      subst h1
      rcases c'' with _ | ⟨f, g⟩
      · simp at h2
      · rw [List.cons_append] at h2
        injection h2 with h3 h4
        subst h3
        refine ⟨g, B, h4, ?_⟩
        have h5 : hasClosePair ('[' :: '[' :: g) = false := by
          rw [hc1] at hA
          exact ncp_append_right x _ hA
        exact hasClosePair_cons_down _ _ (hasClosePair_cons_down _ _ h5)

/-- Lemma E: a pair-free prefix followed by a line terminator defeats the
close scan, whatever follows the terminator. -/
theorem findClose_none_of_term : ∀ (y₁ : List Char) (tc : Char) (y₂ : List Char),
    hasClosePair y₁ = false → isLineTerm tc = true →
    findClose (y₁ ++ tc :: y₂) = none
  | [], tc, y₂, _, htc => findClose_cons_term tc y₂ htc
  | c :: y₁', tc, y₂, h, htc => by
    have h' : hasClosePair y₁' = false := hasClosePair_cons_down c _ h
    by_cases hc : isLineTerm c = true
    · exact findClose_cons_term c _ hc
    · have hjunction : ¬(c = ']' ∧ (y₁' ++ tc :: y₂).head? = some ']') := by
        rintro ⟨rfl, hh⟩
        rcases y₁' with _ | ⟨d, y₁''⟩
        · have hd : tc = ']' := by simpa using hh
          rw [hd] at htc
          exact absurd htc (by decide)
        · have hd : d = ']' := by simpa using hh
          subst hd
          simp [hasClosePair] at h
      rw [List.cons_append, findClose_cons_of c _ hjunction (by simpa using hc),
        findClose_none_of_term y₁' tc y₂ h' htc]
      rfl

/-- The line-break instance of the terminator lemma (the templates glue their
lines with `\n`). -/
theorem findClose_none_of_nl (y₁ y₂ : List Char) (h : hasClosePair y₁ = false) :
    findClose (y₁ ++ '\n' :: y₂) = none :=
  findClose_none_of_term y₁ '\n' y₂ h (by decide)

/-- A fully pair-free input defeats the close scan. -/
theorem findClose_none_of_ncp : ∀ (y : List Char), hasClosePair y = false →
    findClose y = none
  | [], _ => rfl
  | c :: t, h => by
    have hj : ¬(c = ']' ∧ t.head? = some ']') := by
      rintro ⟨rfl, hh⟩
      rcases t with _ | ⟨d, t'⟩
      · simp at hh
      · have hd : d = ']' := by simpa using hh
        subst hd
        simp [hasClosePair] at h
    by_cases hc : isLineTerm c = true
    · exact findClose_cons_term c t hc
    · rw [findClose_cons_of c t hj (by simpa using hc),
        findClose_none_of_ncp t (hasClosePair_cons_down c t h)]
      rfl

/-- Soundness of the close scan: a successful scan splits the input at the
first `]]`, so the capture holds no premature `]]` (even jointly with the
closing bracket) and no line terminator. -/
theorem findClose_sound : ∀ (n : ℕ) (l : List Char), l.length ≤ n → ∀ cap rest,
    findClose l = some (cap, rest) →
    l = cap ++ ']' :: ']' :: rest ∧ hasClosePair (cap ++ [']']) = false ∧
      ∀ x ∈ cap, isLineTerm x = false := by
  intro n
  induction n with
  | zero =>
    intro l hlen cap rest h
    have h0 : l = [] := List.eq_nil_of_length_eq_zero (Nat.le_zero.mp hlen)
    subst h0
    simp [findClose] at h
  | succ m ih =>
    intro l hlen cap rest h
    rw [findClose.eq_def] at h
    split at h
    · simp at h
    · rename_i t
      have h' := Option.some.inj h
      have h1 : cap = [] := (congrArg Prod.fst h').symm
      have h2 : rest = t := (congrArg Prod.snd h').symm
      subst h1
      subst h2
      exact ⟨rfl, by decide, by simp⟩
    · rename_i x c t hne
      split at h
      · simp at h
      · rename_i hterm
        cases hft : findClose t with
        | none =>
          rw [hft] at h
          simp at h
        | some p =>
          obtain ⟨cap', rest'⟩ := p
          rw [hft] at h
          have h' := Option.some.inj h
          have h1 : cap = c :: cap' := (congrArg Prod.fst h').symm
          have h2 : rest = rest' := (congrArg Prod.snd h').symm
          subst h1
          subst h2
          obtain ⟨ht1, ht2, ht3⟩ := ih t (by simpa using hlen) cap' rest hft
          refine ⟨by rw [List.cons_append, ← ht1], ?_, ?_⟩
          · rw [List.cons_append]
            have hj : ¬(c = ']' ∧ (cap' ++ [']']).head? = some ']') := by
              rintro ⟨rfl, hh⟩
              rcases cap' with _ | ⟨d, cap''⟩
              · exact hne (']' :: rest) rfl (by simpa using ht1)
              · have hd : d = ']' := by simpa using hh
                subst hd
                exact hne (cap'' ++ ']' :: ']' :: rest) rfl (by simpa using ht1)
            rw [hasClosePair_cons_of c _ hj]
            exact ht2
          · intro z hz
            rcases List.mem_cons.mp hz with hz | hz
            · subst hz
              simpa using hterm
            · exact ht3 z hz

/-- `headTok` fails when the head is not `[`. -/
theorem headTok_none_of_head (c : Char) (x : List Char) (h : c ≠ '[') :
    headTok (c :: x) = none := by
  rw [headTok.eq_def]
  split
  · rename_i rest heq
    injection heq with h1 h2
    exact absurd h1 h
  · rfl

/-- `headTok` fails when the second character is not `[`. -/
theorem headTok_none_of_second (c : Char) (x : List Char) (h : x.head? ≠ some '[') :
    headTok (c :: x) = none := by
  rw [headTok.eq_def]
  split
  · rename_i rest heq
    injection heq with h1 h2
    exact absurd (by rw [h2]; rfl) h
  · rfl

/-- `headTok` after an opening `[[` is exactly the close scan. -/
theorem headTok_open (x : List Char) : headTok ('[' :: '[' :: x) = findClose x := rfl

/-- Soundness of `headTok`: a match decomposes the input as
`[[capture]] ++ remainder` with a clean capture. -/
theorem headTok_some_shape (l cap rest : List Char) (h : headTok l = some (cap, rest)) :
    l = '[' :: '[' :: (cap ++ ']' :: ']' :: rest) ∧
      hasClosePair (cap ++ [']']) = false ∧ ∀ x ∈ cap, isLineTerm x = false := by
  rw [headTok.eq_def] at h
  split at h
  · rename_i r
    obtain ⟨h1, h2, h3⟩ := findClose_sound r.length r le_rfl cap rest h
    exact ⟨by rw [h1], h2, h3⟩
  · simp at h

/-- A failing close scan means the input is pair-free or guarded by a line
terminator behind a pair-free prefix. -/
theorem findClose_none_char : ∀ (n : ℕ) (y : List Char), y.length ≤ n →
    findClose y = none →
    hasClosePair y = false ∨
      ∃ y₁ tc y₂, y = y₁ ++ tc :: y₂ ∧ isLineTerm tc = true ∧
        hasClosePair y₁ = false := by
  intro n
  induction n with
  | zero =>
    intro y hlen _
    have h0 : y = [] := List.eq_nil_of_length_eq_zero (Nat.le_zero.mp hlen)
    subst h0
    exact Or.inl rfl
  | succ m ih =>
    intro y hlen h
    rw [findClose.eq_def] at h
    split at h
    · exact Or.inl rfl
    · simp at h
    · rename_i x c t hne
      split at h
      · rename_i hterm
        exact Or.inr ⟨[], c, t, rfl, hterm, rfl⟩
      · rename_i hterm
        have hft : findClose t = none := by
          cases hft : findClose t with
          | none => rfl
          | some p =>
            rw [hft] at h
            simp at h
        have hj : ¬(c = ']' ∧ t.head? = some ']') := by
          rintro ⟨rfl, hh⟩
          rcases t with _ | ⟨d, t'⟩
          · simp at hh
          · have hd : d = ']' := by simpa using hh
            subst hd
            exact hne t' rfl rfl
        rcases ih t (by simpa using hlen) hft with hncp | ⟨y₁, tc, y₂, rfl, htc, hncp1⟩
        · left
          rw [hasClosePair_cons_of c t hj]
          exact hncp
        · right
          refine ⟨c :: y₁, tc, y₂, rfl, htc, ?_⟩
          have hj1 : ¬(c = ']' ∧ y₁.head? = some ']') := by
            rintro ⟨rfl, hh⟩
            rcases y₁ with _ | ⟨d, y₁'⟩
            · have hd : tc = ']' := by simpa using hh
              rw [hd] at htc
              exact absurd htc (by decide)
            · have hd : d = ']' := by simpa using hh
              subst hd
              exact hj ⟨rfl, rfl⟩
          rw [hasClosePair_cons_of c y₁ hj1]
          exact hncp1

/-- The empty list hosts no citation token. -/
theorem matchFree_nil : matchFree [] := by
  intro u v huv
  have hv : v = [] := (List.append_eq_nil.mp huv.symm).2
  rw [hv]
  rfl

/-- `matchFree` descends to the tail. -/
theorem matchFree_cons_down (c : Char) (l : List Char) (h : matchFree (c :: l)) :
    matchFree l :=
  fun u v huv => h (c :: u) v (by rw [huv]; rfl)

/-- `matchFree` from a failing head token and a match-free tail. -/
theorem matchFree_cons (c : Char) (O : List Char) (h0 : headTok (c :: O) = none)
    (hO : matchFree O) : matchFree (c :: O) := by
  intro u v huv
  rcases u with _ | ⟨d, u'⟩
  · rw [List.nil_append] at huv
    rw [← huv]
    exact h0
  · rw [List.cons_append] at huv
    injection huv with h1 h2
    exact hO u' v h2

/-- `matchFree` from the close-scan condition at every `[[` occurrence. -/
theorem matchFree_intro (l : List Char)
    (h : ∀ x y, l = x ++ '[' :: '[' :: y → findClose y = none) : matchFree l := by
  intro u v huv
  rw [headTok.eq_def]
  split
  · rename_i rest
    exact h u rest huv
  · rfl

/-- A safe block whose last character is not `[` may be prepended to a
match-free continuation. -/
theorem matchFree_append_of (R O : List Char) (hR : SafeTail R)
    (hlast : R.getLast? ≠ some '[') (hO : matchFree O) : matchFree (R ++ O) := by
  refine matchFree_intro _ (fun x y hxy => ?_)
  rcases List.append_eq_append_iff.mp hxy with ⟨a', ha1, ha2⟩ | ⟨c', hc1, hc2⟩
  · have := hO a' ('[' :: '[' :: y) ha2
    rwa [headTok_open y] at this
  · rcases c' with _ | ⟨e, c''⟩
    · have hOy : O = '[' :: '[' :: y := by simpa using hc2.symm
      have := hO [] ('[' :: '[' :: y) (by rw [List.nil_append, hOy])
      rwa [headTok_open y] at this
    · rcases c'' with _ | ⟨f, c'''⟩
      · injection hc2 with h1 h2
        subst h1
        exact absurd (by rw [hc1]; simp) hlast
      · injection hc2 with h1 h2
        injection h2 with h3 h4
        subst h1
        subst h3
        obtain ⟨y₁, y₂, hy, hncp⟩ := hR x c''' hc1
        rw [h4, hy]
        show findClose ((y₁ ++ '\n' :: y₂) ++ O) = none
        rw [List.append_assoc, List.cons_append]
        exact findClose_none_of_nl y₁ (y₂ ++ O) hncp

/-- `scanCit` with no fuel yields nothing. -/
theorem scanCit_zero (pid : String) (l : List Char) : scanCit pid 0 l = [] := by
  cases l <;> rfl

/-- One successful head token is replaced and the scan resumes after it. -/
theorem scanCit_cons_some (pid : String) (m : ℕ) (c : Char) (cs cap rest : List Char)
    (h : headTok (c :: cs) = some (cap, rest)) :
    scanCit pid (m + 1) (c :: cs) = citationReplacement pid cap ++ scanCit pid m rest := by
  show (match headTok (c :: cs) with
    | some (cap, rest) => citationReplacement pid cap ++ scanCit pid m rest
    | none => c :: scanCit pid m cs) = _
  rw [h]

/-- A failing head token copies one character. -/
theorem scanCit_cons_none (pid : String) (m : ℕ) (c : Char) (cs : List Char)
    (h : headTok (c :: cs) = none) :
    scanCit pid (m + 1) (c :: cs) = c :: scanCit pid m cs := by
  show (match headTok (c :: cs) with
    | some (cap, rest) => citationReplacement pid cap ++ scanCit pid m rest
    | none => c :: scanCit pid m cs) = _
  rw [h]

/-- The scan is the identity on pair-free input (no token can ever close). -/
theorem scanCit_ncp_id (pid : String) : ∀ (n : ℕ) (l : List Char), l.length ≤ n →
    hasClosePair l = false → scanCit pid n l = l := by
  intro n
  induction n with
  | zero =>
    intro l hlen _
    have h0 : l = [] := List.eq_nil_of_length_eq_zero (Nat.le_zero.mp hlen)
    subst h0
    exact scanCit_zero pid []
  | succ m ih =>
    intro l hlen hncp
    rcases l with _ | ⟨c, cs⟩
    · exact scanCit_nil pid _
    · cases ht : headTok (c :: cs) with
      | some pr =>
        exfalso
        obtain ⟨cap, rest⟩ := pr
        obtain ⟨hshape, _, _⟩ := headTok_some_shape _ _ _ ht
        have htrue : hasClosePair (c :: cs) = true :=
          (hasClosePair_iff _).mpr ⟨'[' :: '[' :: cap, rest, by rw [hshape]; simp⟩
        rw [htrue] at hncp
        exact absurd hncp (by simp)
      | none =>
        rw [scanCit_cons_none pid m c cs ht,
          ih cs (by simpa using hlen) (hasClosePair_cons_down c cs hncp)]

/-- The scan copies a pair-free prefix up to and including its line
terminator. -/
theorem scanCit_prefix_term (pid : String) : ∀ (n : ℕ) (y₁ : List Char) (tc : Char)
    (y₂ : List Char), (y₁ ++ tc :: y₂).length ≤ n → hasClosePair y₁ = false →
    isLineTerm tc = true → ∃ z, scanCit pid n (y₁ ++ tc :: y₂) = y₁ ++ tc :: z := by
  intro n
  induction n with
  | zero =>
    intro y₁ tc y₂ hlen _ _
    exfalso
    simp [List.length_append] at hlen
  | succ m ih =>
    intro y₁ tc y₂ hlen hncp htc
    have htc_ne : ∀ d : Char, isLineTerm d = false → tc ≠ d := by
      intro d hd hcc
      rw [hcc, hd] at htc
      exact absurd htc (by decide)
    rcases y₁ with _ | ⟨c, y₁'⟩
    · refine ⟨scanCit pid m y₂, ?_⟩
      rw [List.nil_append,
        scanCit_cons_none pid m tc y₂ (headTok_none_of_head _ _ (htc_ne '[' (by decide)))]
      rfl
    · have hncp' := hasClosePair_cons_down c _ hncp
      have h0 : headTok (c :: (y₁' ++ tc :: y₂)) = none := by
        by_cases hc : c = '['
        · subst hc
          rcases y₁' with _ | ⟨d, y₁''⟩
          · refine headTok_none_of_second _ _ ?_
            rw [List.nil_append, List.head?_cons]
            intro hcc
            exact htc_ne '[' (by decide) (Option.some.inj hcc)
          · by_cases hdd : d = '['
            · subst hdd
              show headTok ('[' :: '[' :: (y₁'' ++ tc :: y₂)) = none
              rw [headTok_open]
              exact findClose_none_of_term y₁'' tc y₂
                (hasClosePair_cons_down _ _ hncp') htc
            · exact headTok_none_of_second _ _ (by simp [hdd])
        · exact headTok_none_of_head _ _ hc
      rw [List.cons_append, scanCit_cons_none pid m c _ h0]
      obtain ⟨z, hz⟩ := ih y₁' tc y₂ (by simp [List.length_append] at hlen ⊢; omega) hncp' htc
      exact ⟨z, by rw [hz]; rfl⟩

/-- Claim C: a failing close scan on the input stays failing on the scanned
output. -/
theorem scanCit_findClose_none (pid : String) (n : ℕ) (l : List Char)
    (hlen : l.length ≤ n) (hfc : findClose l = none) :
    findClose (scanCit pid n l) = none := by
  rcases findClose_none_char l.length l le_rfl hfc with hncp | ⟨y₁, tc, y₂, hdec, htc, hncp⟩
  · rw [scanCit_ncp_id pid n l hlen hncp]
    exact hfc
  · subst hdec
    obtain ⟨z, hz⟩ := scanCit_prefix_term pid n y₁ tc y₂ hlen hncp htc
    rw [hz]
    exact findClose_none_of_term y₁ tc z hncp htc

/-- The last element of a concatenation with a nonempty right factor. -/
theorem getLast?_append_right {α : Type} : ∀ (X Y : List α), Y ≠ [] →
    (X ++ Y).getLast? = Y.getLast?
  | [], _, _ => rfl
  | c :: X, Y, h => by
    have ih := getLast?_append_right X Y h
    rcases hXY : X ++ Y with _ | ⟨d, t⟩
    · exact absurd (List.append_eq_nil.mp hXY).2 h
    · rw [List.cons_append, hXY, List.getLast?_cons_cons, ← hXY, ih]

/-- The last element skips past a line prefix and its separator. -/
theorem getLast?_append_sep {α : Type} (X Y : List α) (c : α) (h : Y ≠ []) :
    (X ++ c :: Y).getLast? = Y.getLast? := by
  rw [getLast?_append_right X _ (List.cons_ne_nil c Y),
    show c :: Y = [c] ++ Y from rfl, getLast?_append_right [c] Y h]

/-- The interactive element ends with the `>` of its closing tag. -/
theorem anchorHtml_last (href ty idv sec disp icon : List Char) :
    (anchorHtml href ty idv sec disp icon).getLast? = some '>' := by
  unfold anchorHtml
  rw [getLast?_append_sep _ _ _ (by first | decide | simp), getLast?_append_sep _ _ _ (by first | decide | simp),
    getLast?_append_sep _ _ _ (by first | decide | simp), getLast?_append_sep _ _ _ (by first | decide | simp),
    getLast?_append_sep _ _ _ (by first | decide | simp), getLast?_append_sep _ _ _ (by first | decide | simp),
    getLast?_append_sep _ _ _ (by first | decide | simp), getLast?_append_sep _ _ _ (by first | decide | simp)]
  decide

/-- The badge ends with the `>` of its closing tag. -/
theorem badgeHtml_last (icon nm : List Char) :
    (badgeHtml icon nm).getLast? = some '>' := by
  unfold badgeHtml
  rw [getLast?_append_sep _ _ _ (by first | decide | simp), getLast?_append_sep _ _ _ (by first | decide | simp),
    getLast?_append_sep _ _ _ (by first | decide | simp)]
  decide

/-- Every replacement ends with `>`. -/
theorem citationReplacement_last (pid : String) (name : List Char) :
    (citationReplacement pid name).getLast? = some '>' := by
  rw [citationReplacement.eq_def]
  repeat' split
  all_goals first
    | exact anchorHtml_last _ _ _ _ _ _
    | exact badgeHtml_last _ _

/-- Every replacement starts with `<`. -/
theorem citationReplacement_head (pid : String) (name : List Char) :
    (citationReplacement pid name).head? = some '<' := by
  rw [citationReplacement.eq_def]
  repeat' split
  all_goals rfl

/-- `dropWhile` is `drop` of the `takeWhile` length. -/
theorem dropWhile_eq_drop_len (p : Char → Bool) : ∀ (l : List Char),
    l.dropWhile p = l.drop (l.takeWhile p).length
  | [] => rfl
  | c :: t => by
    by_cases h : p c
    · simp [List.dropWhile_cons, List.takeWhile_cons, h, dropWhile_eq_drop_len p t]
    · simp [List.dropWhile_cons, List.takeWhile_cons, h]

/-- A successful case-insensitive strip returns the dropped remainder. -/
theorem stripPrefixCI_sound (pat l rest : List Char)
    (h : stripPrefixCI pat l = some rest) : rest = l.drop pat.length := by
  unfold stripPrefixCI at h
  split at h
  · exact (Option.some.inj h).symm
  · simp at h

/-- The backtracking `(.*)_(\d+)$` split: the remainder factors as
`group1 ++ _ ++ digits` with a nonempty all-digit second group. -/
theorem lastUnderscoreDigits_sound (l g1 ds : List Char)
    (h : lastUnderscoreDigits l = some (g1, ds)) :
    l = g1 ++ '_' :: ds ∧ ∀ c ∈ ds, c.isDigit := by
  simp only [lastUnderscoreDigits] at h
  split at h
  · simp at h
  · split at h
    · rename_i rem heq
      have h' := Option.some.inj h
      have h1 : g1 = rem.reverse := (congrArg Prod.fst h').symm
      have h2 : ds = (l.reverse.takeWhile Char.isDigit).reverse :=
        (congrArg Prod.snd h').symm
      subst h1
      subst h2
      constructor
      · have hsplit : l.reverse = l.reverse.takeWhile Char.isDigit ++ '_' :: rem := by
          conv_lhs => rw [← List.takeWhile_append_dropWhile Char.isDigit l.reverse]
          rw [dropWhile_eq_drop_len Char.isDigit l.reverse, heq]
        conv_lhs => rw [← l.reverse_reverse, hsplit]
        rw [List.reverse_append, List.reverse_cons, List.append_assoc]
        rfl
      · intro c hc
        exact List.mem_takeWhile_imp (List.mem_reverse.mp hc)
    · simp at h

/-- Soundness of the `^Keyword_(.*)_(\d+)$` match against a name. -/
theorem matchNameId_sound (kw name g1 ds : List Char)
    (h : matchNameId kw name = some (g1, ds)) :
    name.drop (kw.length + 1) = g1 ++ '_' :: ds ∧ ∀ c ∈ ds, c.isDigit := by
  unfold matchNameId at h
  split at h
  · simp at h
  · rename_i rest heq
    split at h
    · simp at h
    · rename_i g1' ds' heq2
      split at h
      · simp at h
      · have h' := Option.some.inj h
        have h1 : g1 = g1' := (congrArg Prod.fst h').symm
        have h2 : ds = ds' := (congrArg Prod.snd h').symm
        subst h1
        subst h2
        have hrest := stripPrefixCI_sound _ _ _ heq
        obtain ⟨hfac, hdig⟩ := lastUnderscoreDigits_sound rest g1 ds heq2
        have hlen : (kw ++ ['_']).length = kw.length + 1 := by simp
        rw [← hlen, ← hrest]
        exact ⟨hfac, hdig⟩

/-- The knowledge-base keyword match only returns the five literal keywords. -/
theorem matchKbKeyword_mem (name : List Char) (kw : String) (ds : List Char)
    (h : matchKbKeyword name = some (kw, ds)) :
    kw = "prd" ∨ kw = "specs" ∨ kw = "timeline" ∨ kw = "glossary" ∨ kw = "business" := by
  unfold matchKbKeyword at h
  obtain ⟨a, ha, hfa⟩ := List.exists_of_findSome?_eq_some h
  have hkw : kw = a := by
    split at hfa
    · split at hfa
      · exact ((congrArg Prod.fst (Option.some.inj hfa)).symm : kw = a)
      · simp at hfa
    · simp at hfa
  subst hkw
  simpa using ha

/-- Pair-freeness restricts to any drop. -/
theorem ncp_drop (l : List Char) (k : ℕ) (h : hasClosePair l = false) :
    hasClosePair (l.drop k) = false :=
  ncp_append_right (l.take k) _ (by rw [List.take_append_drop]; exact h)

/-- An all-digit list is pair-free. -/
theorem ncp_of_digits (ds : List Char) (h : ∀ c ∈ ds, c.isDigit) :
    hasClosePair ds = false := by
  refine ncp_of_no_bracket ds (fun c hc hcc => ?_)
  subst hcc
  exact absurd (h ']' hc) (by decide)

set_option maxRecDepth 8000 in
/-- The interactive element is safe: each of its `[[` occurrences (which can
only sit inside an inserted attribute value) is closed off by the line break
ending its template line before any `]]` can occur. -/
theorem safeTail_anchorHtml (href ty idv sec disp icon : List Char)
    (h1 : hasClosePair href = false) (h2 : hasClosePair ty = false)
    (h3 : hasClosePair idv = false) (h4 : hasClosePair sec = false)
    (h5 : hasClosePair disp = false) (h6 : hasClosePair icon = false) :
    SafeTail (anchorHtml href ty idv sec disp icon) := by
  unfold anchorHtml lineA1 lineA2 lineA3 lineA4 lineA5 lineA6 lineA7 lineA8
  refine safeTail_step _ _ (ncp_wrap _ _ _ (by decide) (by decide) (by decide) (by decide) h1) ?_
  refine safeTail_step _ _ (ncp_wrap _ _ _ (by decide) (by decide) (by decide) (by decide) h2) ?_
  refine safeTail_step _ _ (ncp_wrap _ _ _ (by decide) (by decide) (by decide) (by decide) h3) ?_
  refine safeTail_step _ _ (ncp_wrap _ _ _ (by decide) (by decide) (by decide) (by decide) h4) ?_
  refine safeTail_step _ _ (ncp_wrap _ _ _ (by decide) (by decide) (by decide) (by decide) h5) ?_
  refine safeTail_step _ _ (ncp_wrap _ _ _ (by decide) (by decide) (by decide) (by decide) h6) ?_
  refine safeTail_step _ _ (ncp_wrap _ _ _ (by decide) (by decide) (by decide) (by decide) h5) ?_
  refine safeTail_step _ _ (by decide) ?_
  exact safeTail_of_no_open _ (by decide)

set_option maxRecDepth 8000 in
/-- The badge element is safe in the same way. -/
theorem safeTail_badgeHtml (icon nm : List Char)
    (h1 : hasClosePair icon = false) (h2 : hasClosePair nm = false) :
    SafeTail (badgeHtml icon nm) := by
  unfold badgeHtml lineB1 lineB2 lineB3
  refine safeTail_step _ _ (by decide) ?_
  refine safeTail_step _ _ (ncp_wrap _ _ _ (by decide) (by decide) (by decide) (by decide) h1) ?_
  refine safeTail_step _ _ (ncp_wrap _ _ _ (by decide) (by decide) (by decide) (by decide) h2) ?_
  exact safeTail_of_no_open _ (by decide)

/-- The replacement produced for any clean capture is safe, provided the
project id itself holds no `]]` (it is interpolated into two hrefs). -/
theorem safeTail_citationReplacement (pid : String) (name : List Char)
    (hpid : hasClosePair pid.data = false)
    (hname : hasClosePair (name ++ [']']) = false) :
    SafeTail (citationReplacement pid name) := by
  have hn : hasClosePair name = false := ncp_append_left _ _ hname
  rw [citationReplacement.eq_def]
  split
  · split
    · rename_i heq
      obtain ⟨hdrop, hdig⟩ := matchNameId_sound "minutes".data name _ _ heq
      have hrest : hasClosePair (name.drop ("minutes".data.length + 1)) = false :=
        ncp_drop name _ hn
      rw [hdrop] at hrest
      have hg1 := ncp_append_left _ _ hrest
      have hds := ncp_of_digits _ hdig
      exact safeTail_anchorHtml _ _ _ _ _ _
        (ncp_wrap _ _ _ (by decide) (by decide) (by decide) (by decide) hds)
        (by decide) hds (by decide) hg1 (by decide)
    · exact safeTail_badgeHtml _ _ (by decide) hn
  · split
    · split
      · rename_i heq
        obtain ⟨hdrop, hdig⟩ := matchNameId_sound "transcript".data name _ _ heq
        have hrest : hasClosePair (name.drop ("transcript".data.length + 1)) = false :=
          ncp_drop name _ hn
        rw [hdrop] at hrest
        have hg1 := ncp_append_left _ _ hrest
        have hds := ncp_of_digits _ hdig
        exact safeTail_anchorHtml _ _ _ _ _ _
          (ncp_append_of _ _ (by decide) hds (Or.inl (by decide)))
          (by decide) hds (by decide) hg1 (by decide)
      · exact safeTail_badgeHtml _ _ (by decide) hn
    · split
      · rename_i heq
        rcases matchKbKeyword_mem name _ _ heq with hk | hk | hk | hk | hk <;>
          subst hk <;>
          exact safeTail_anchorHtml _ _ _ _ _ _
            (ncp_wrap _ _ _ (by decide) (by decide) (by decide) (by decide) hpid)
            (by decide) (by decide) (by decide) (by decide) (by decide)
      · split
        · split
          · rename_i heq
            obtain ⟨hdrop, hdig⟩ := matchNameId_sound "document".data name _ _ heq
            have hrest : hasClosePair (name.drop ("document".data.length + 1)) = false :=
              ncp_drop name _ hn
            rw [hdrop] at hrest
            have hg1 := ncp_append_left _ _ hrest
            have hds := ncp_of_digits _ hdig
            exact safeTail_anchorHtml _ _ _ _ _ _
              (ncp_wrap _ _ _ (by decide) (by decide) (by decide) (by decide) hpid)
              (by decide) hds (by decide) hg1 (by decide)
          · exact safeTail_badgeHtml _ _ (by decide) hn
        · exact safeTail_badgeHtml _ _ (by decide) hn

/-- Lemma D lifted one step: a failing head token on the input keeps failing
when the tail has been scanned, because a replacement can only start with `<`
and a copied tail preserves the failing close scan. -/
theorem headTok_cons_scan (pid : String) (m : ℕ) (c : Char) (cs : List Char)
    (hlen : cs.length ≤ m) (h : headTok (c :: cs) = none) :
    headTok (c :: scanCit pid m cs) = none := by
  by_cases hc : c = '['
  · subst hc
    rcases cs with _ | ⟨d, cs'⟩
    · rw [scanCit_nil]
      rfl
    · cases m with
      | zero => simp at hlen
      | succ m' =>
        by_cases hd : d = '['
        · subst hd
          have hfc : findClose cs' = none := by rw [← headTok_open cs']; exact h
          cases ht2 : headTok ('[' :: cs') with
          | some pr =>
            obtain ⟨cap, rest⟩ := pr
            rw [scanCit_cons_some pid m' '[' cs' cap rest ht2]
            have hh := citationReplacement_head pid cap
            rcases hrepl : citationReplacement pid cap with _ | ⟨r0, rr⟩
            · rw [hrepl] at hh
              simp at hh
            · rw [hrepl] at hh
              have hr0 : r0 = '<' := by simpa using hh
              subst hr0
              exact headTok_none_of_second _ _ (by rw [List.cons_append, List.head?_cons]; decide)
          | none =>
            rw [scanCit_cons_none pid m' '[' cs' ht2, headTok_open]
            exact scanCit_findClose_none pid m' cs' (by simpa using hlen) hfc
        · cases ht2 : headTok (d :: cs') with
          | some pr =>
            obtain ⟨cap, rest⟩ := pr
            rw [scanCit_cons_some pid m' d cs' cap rest ht2]
            have hh := citationReplacement_head pid cap
            rcases hrepl : citationReplacement pid cap with _ | ⟨r0, rr⟩
            · rw [hrepl] at hh
              simp at hh
            · rw [hrepl] at hh
              have hr0 : r0 = '<' := by simpa using hh
              subst hr0
              exact headTok_none_of_second _ _ (by rw [List.cons_append, List.head?_cons]; decide)
          | none =>
            rw [scanCit_cons_none pid m' d cs' ht2]
            exact headTok_none_of_second _ _ (by simp [hd])
  · exact headTok_none_of_head c _ hc

/-- Lemma A: when the project id holds no `]]`, the scanned output hosts no
citation token at any position. -/
theorem scanCit_matchFree (pid : String) (hpid : hasClosePair pid.data = false) :
    ∀ (n : ℕ) (l : List Char), l.length ≤ n → matchFree (scanCit pid n l) := by
  intro n
  induction n with
  | zero =>
    intro l hlen
    rw [scanCit_zero]
    exact matchFree_nil
  | succ m ih =>
    intro l hlen
    rcases l with _ | ⟨c, cs⟩
    · rw [scanCit_nil]
      exact matchFree_nil
    · cases ht : headTok (c :: cs) with
      | some pr =>
        obtain ⟨cap, rest⟩ := pr
        obtain ⟨hshape, hncpcap, hnl⟩ := headTok_some_shape _ _ _ ht
        have hlen2 := congrArg List.length hshape
        simp [List.length_append] at hlen2
        have hlen' : (c :: cs).length ≤ m + 1 := hlen
        simp at hlen'
        have hrest : rest.length ≤ m := by omega
        rw [scanCit_cons_some pid m c cs cap rest ht]
        exact matchFree_append_of _ _
          (safeTail_citationReplacement pid cap hpid hncpcap)
          (by rw [citationReplacement_last]; decide)
          (ih rest hrest)
      | none =>
        rw [scanCit_cons_none pid m c cs ht]
        refine matchFree_cons c _ ?_ (ih cs (by simpa using hlen))
        exact headTok_cons_scan pid m c cs (by simpa using hlen) ht

/-- Lemma B: the scan is the identity on a match-free input. -/
theorem scanCit_of_matchFree (pid : String) : ∀ (n : ℕ) (l : List Char),
    l.length ≤ n → matchFree l → scanCit pid n l = l := by
  intro n
  induction n with
  | zero =>
    intro l hlen _
    have h0 : l = [] := List.eq_nil_of_length_eq_zero (Nat.le_zero.mp hlen)
    subst h0
    exact scanCit_zero pid []
  | succ m ih =>
    intro l hlen hmf
    rcases l with _ | ⟨c, cs⟩
    · exact scanCit_nil pid _
    · have h0 : headTok (c :: cs) = none := hmf [] (c :: cs) rfl
      rw [scanCit_cons_none pid m c cs h0,
        ih cs (by simpa using hlen) (matchFree_cons_down c cs hmf)]

/-- C9: `transformCitations` is idempotent — scanning its own output finds no
further `[[...]]` token and returns it unchanged — for every project id free
of `]]` (the interpolated route parameter); the spec's double-application
guarantee holds. -/
theorem c9_transformCitations_idempotent (pid : String) (s : String)
    (hpid : hasClosePair pid.data = false) :
    transformCitations pid (transformCitations pid s) = transformCitations pid s := by
  have hmf : matchFree (scanCit pid s.data.length s.data) :=
    scanCit_matchFree pid hpid s.data.length s.data le_rfl
  show String.mk (scanCit pid (scanCit pid s.data.length s.data).length
      (scanCit pid s.data.length s.data)) = _
  rw [scanCit_of_matchFree pid _ _ le_rfl hmf]
  rfl

/-- C9 witness: idempotence applied at project id `"7"` and a knowledge-base
citation input. -/
theorem c9_transformCitations_idempotent_witness :
    hasClosePair ("7" : String).data = false ∧
      transformCitations "7" (transformCitations "7" "a [[PRD_3]] b") =
        transformCitations "7" "a [[PRD_3]] b" :=
  ⟨by decide, c9_transformCitations_idempotent "7" "a [[PRD_3]] b" (by decide)⟩

end MeetMind
